import Mathlib

/-!
Verification development for the tex2pdf-cli repository.

The development shallowly embeds the three JavaScript source files:
* the CLI entry point (argument handling, `ensureLaTeX`, `convertFile`,
  the engine-fallback logic of `main`),
* `install-latex.js` (`getTinyTeXBinPath`, `checkTinyTeXInstalled`,
  `fixTinyTeXSymlinks`, the download-progress handler of `downloadFile`),
* `find-latex.js` (`findSystemLaTeX`, `findTinyTeX`, `getLaTeXPath`,
  `hasLaTeX`, `getEnginePath`).

JavaScript strings are modelled as lists of characters (`JStr`).  Node's
POSIX `path.join` / `path.normalize` / `path.parse` are reimplemented
faithfully for the fragment the sources use.  The filesystem is an explicit
value: a list of existing paths for the locator, and a directory listing of
entries (regular file / symlink with a brokenness flag / entry whose lstat
fails) for the symlink-repair pass.  External collaborators (the `which`
probe, the LaTeX engine process, the network) are inputs of the model:
their outcomes are fields of the environment structures below, exactly as
the spec's "external collaborators" section delimits them.  Byte counts in
the download-progress model use exact natural-number arithmetic for
`Math.floor((downloaded / total) * 100)`.
-/

/-- JavaScript strings, modelled as lists of characters. -/
abbrev JStr := List Char

/-- `pre.isPrefixOf s` for character lists: models JS `String.startsWith`. -/
def startsWithJ : JStr → JStr → Bool
  | [], _ => true
  | _ :: _, [] => false
  | a :: pr, b :: s => a = b && startsWithJ pr s

/-- `needle` occurs as a contiguous substring of the second argument:
models JS `String.includes`. -/
def isInfixJ (needle : JStr) : JStr → Bool
  | [] => startsWithJ needle []
  | a :: t => startsWithJ needle (a :: t) || isInfixJ needle t

/-- `String.split(sep)` of JS, specialised to a one-character separator. -/
def splitOnChar (sep : Char) : JStr → List JStr
  | [] => [[]]
  | c :: rest =>
    match splitOnChar sep rest with
    | [] => [[]]
    | g :: gs => if c = sep then [] :: g :: gs else (c :: g) :: gs

/-- Join path components with `'/'` (no separator added around empties):
the concatenation step of Node's `path.join`. -/
def intercalateSlash : List JStr → JStr
  | [] => []
  | [p] => p
  | p :: q :: rest => p ++ '/' :: intercalateSlash (q :: rest)

/-- Index of the last occurrence of a character, JS `lastIndexOf`. -/
def lastIdxOf (c : Char) : JStr → Option Nat
  | [] => none
  | a :: rest =>
    match lastIdxOf c rest with
    | some i => some (i + 1)
    | none => if a = c then some 0 else none

/-- Remove all trailing occurrences of a character. -/
def dropTrailing (c : Char) (l : JStr) : JStr :=
  (l.reverse.dropWhile (fun a => decide (a = c))).reverse

/-- Whether a string starts with `'/'`. -/
def startsSlash : JStr → Bool
  | [] => false
  | a :: _ => decide (a = '/')

/-- Membership of a string in a list of strings (JS `Array.includes` with
`===` semantics). -/
def memJ (x : JStr) : List JStr → Bool
  | [] => false
  | a :: t => if x = a then true else memJ x t

/-- The component-stack step of Node's `normalizeString`: empty and `.`
components are dropped, `..` pops a non-`..` top, is kept above the root of
a relative path (`allowAbove`), and is dropped at the root of an absolute
path.  The accumulator is the reversed stack. -/
def normStack (allowAbove : Bool) : List JStr → List JStr → List JStr
  | acc, [] => acc
  | acc, c :: rest =>
    if c = [] ∨ c = ['.'] then normStack allowAbove acc rest
    else if c = ['.', '.'] then
      match acc with
      | [] =>
        if allowAbove then normStack allowAbove [c] rest
        else normStack allowAbove [] rest
      | top :: accTl =>
        if top = ['.', '.'] then normStack allowAbove (c :: acc) rest
        else normStack allowAbove accTl rest
    else normStack allowAbove (c :: acc) rest

/-- Node's `path.posix.normalize`. -/
def pathNormalize (p : JStr) : JStr :=
  if p = [] then ['.']
  else
    let isAbs := startsSlash p
    let trail := startsSlash p.reverse
    let body := intercalateSlash ((normStack (!isAbs) [] (splitOnChar '/' p)).reverse)
    if body = [] then
      if isAbs then ['/'] else if trail then ['.', '/'] else ['.']
    else
      (if isAbs then ['/'] else []) ++ body ++ (if trail then ['/'] else [])

/-- Node's `path.posix.join` on a list of segments: empty segments are
skipped, the rest are joined with `'/'` and normalized; with nothing left
the result is `"."`. -/
def pathJoinL (parts : List JStr) : JStr :=
  let joined := intercalateSlash (parts.filter (fun q => !q.isEmpty))
  if joined = [] then ['.'] else pathNormalize joined

/-- The `dir` and `base` fields of Node's `path.posix.parse`: trailing
slashes are ignored, `base` is what follows the last remaining slash, and
`dir` is the prefix before that slash (the root `"/"` when the path is
absolute with no other slash). -/
def parseDirBase (p : JStr) : JStr × JStr :=
  if p = [] then ([], [])
  else
    let isAbs := startsSlash p
    let start := if isAbs then 1 else 0
    let r := dropTrailing '/' (p.drop start)
    if r = [] then ((if isAbs then ['/'] else []), [])
    else
      match lastIdxOf '/' r with
      | none => ((if isAbs then ['/'] else []), r)
      | some i => (p.take (start + i), r.drop (i + 1))

/-- The `name`/`ext` split of Node's `path.posix.parse` applied to a
`base`: the extension starts at the last dot, except that a dot in first
position or the special base `".."` yields no extension. -/
def extSplit (b : JStr) : JStr × JStr :=
  match lastIdxOf '.' b with
  | none => (b, [])
  | some k =>
    if k = 0 then (b, [])
    else if b = ['.', '.'] then (b, [])
    else (b.take k, b.drop k)

/-! ## find-latex.js / install-latex.js: locating an installation -/

/-- `os.platform()` outcomes distinguished by the sources. -/
inductive Platform where
  | win32
  | darwin
  | linux
deriving DecidableEq

/-- Origin tag of `getLaTeXPath`'s result (`'system'` / `'tinytex'`). -/
inductive Origin where
  | system
  | tinytex
deriving DecidableEq

/-- Read-only filesystem/OS environment of the locator functions.
`systemDir` is the (already `path.dirname`-ed) result of the external
`which pdflatex` probe of `findSystemLaTeX` (`none` when the probe fails);
`files` is the set of paths for which `fs.existsSync` is true;
`dirname` is `__dirname` of the installed package. -/
structure FindEnv where
  systemDir : Option JStr
  files : List JStr
  platform : Platform
  dirname : JStr
deriving DecidableEq

/-- `fs.existsSync` over the modelled filesystem. -/
def existsSyncP (env : FindEnv) (p : JStr) : Bool :=
  memJ p env.files

/-- Append `".exe"` on Windows (the sources do this to every engine name). -/
def withExe (pl : Platform) (name : JStr) : JStr :=
  if pl = Platform.win32 then name ++ ".exe".toList else name

/-- Platform-specific binary subdirectory of the vendored TinyTeX tree. -/
def platSubdir : Platform → JStr
  | Platform.win32 => "windows".toList
  | Platform.darwin => "universal-darwin".toList
  | Platform.linux => "x86_64-linux".toList

/-- `INSTALL_DIR` of install-latex.js and `TINYTEX_DIR` of find-latex.js:
`path.join(__dirname, '.tinytex')`. -/
def INSTALL_DIR (env : FindEnv) : JStr :=
  pathJoinL [env.dirname, ".tinytex".toList]

/-- `getTinyTeXBinPath` of install-latex.js. -/
def getTinyTeXBinPath (env : FindEnv) : JStr :=
  pathJoinL [INSTALL_DIR env, "bin".toList, platSubdir env.platform]

/-- `checkTinyTeXInstalled` of install-latex.js: tests whether the
*xelatex* binary exists in the vendored bin directory. -/
def checkTinyTeXInstalled (env : FindEnv) : Bool :=
  let tinytexBin := getTinyTeXBinPath env
  if tinytexBin = [] then false
  else existsSyncP env (pathJoinL [tinytexBin, withExe env.platform "xelatex".toList])

/-- `findSystemLaTeX` of find-latex.js: the external `which`/`where` probe,
abstracted as an environment input. -/
def findSystemLaTeX (env : FindEnv) : Option JStr :=
  env.systemDir

/-- `findTinyTeX` of find-latex.js: returns the vendored bin directory iff
the *pdflatex* binary exists in it. -/
def findTinyTeX (env : FindEnv) : Option JStr :=
  let binPath := pathJoinL [INSTALL_DIR env, "bin".toList, platSubdir env.platform]
  if existsSyncP env (pathJoinL [binPath, withExe env.platform "pdflatex".toList]) then
    some binPath
  else none

/-- `getLaTeXPath` of find-latex.js. -/
def getLaTeXPath (env : FindEnv) : Option (JStr × Origin) :=
  match findSystemLaTeX env with
  | some s => some (s, Origin.system)
  | none =>
    match findTinyTeX env with
    | some t => some (t, Origin.tinytex)
    | none => none

/-- `hasLaTeX` of find-latex.js. -/
def hasLaTeX (env : FindEnv) : Bool :=
  (getLaTeXPath env).isSome

/-- `getEnginePath` of find-latex.js: appends the platform-appropriate
executable name of the requested engine to whatever location resolved,
without checking that the executable exists. -/
def getEnginePath (env : FindEnv) (engine : JStr) : Option JStr :=
  match getLaTeXPath env with
  | none => none
  | some (p, _) => some (pathJoinL [p, withExe env.platform engine])

/-! ## install-latex.js: the symlink-repair pass -/

/-- One directory entry as seen by `fixTinyTeXSymlinks`: a regular file, a
symbolic link with a flag recording whether its target is inaccessible
(`fs.accessSync` on the link fails), or an entry whose `lstatSync` itself
throws. -/
inductive FsEntry where
  | file
  | symlink (broken : Bool)
  | uninspectable
deriving DecidableEq

/-- A directory listing: entry names with their kinds. -/
abbrev Dir := List (String × FsEntry)

/-- First entry with the given name, if any. -/
def lookupEntry (d : Dir) (n : String) : Option FsEntry :=
  match d with
  | [] => none
  | (m, e) :: rest => if m = n then some e else lookupEntry rest n

/-- Whether `fs.existsSync`/`fs.accessSync` succeeds on an entry: regular
files yes, symlinks iff not broken, uninspectable entries no. -/
def entryAccessible : Option FsEntry → Bool
  | some FsEntry.file => true
  | some (FsEntry.symlink b) => !b
  | some FsEntry.uninspectable => false
  | none => false

/-- `fs.existsSync` inside the vendored bin directory. -/
def existsSyncD (d : Dir) (n : String) : Bool :=
  entryAccessible (lookupEntry d n)

/-- Entries the first loop of `fixTinyTeXSymlinks` unlinks: broken
symlinks, and entries whose lstat fails (deleted defensively). -/
def pruneEntry : FsEntry → Bool
  | FsEntry.file => false
  | FsEntry.symlink b => b
  | FsEntry.uninspectable => true

/-- Effect of the first loop of `fixTinyTeXSymlinks` on the listing: the
loop iterates the `readdirSync` snapshot and unlinks every flagged entry,
which amounts to filtering them out. -/
def removeBroken (d : Dir) : Dir :=
  d.filter (fun p => !pruneEntry p.2)

/-- `fixedCount` of the first loop: the number of entries unlinked. -/
def brokenCount (d : Dir) : Nat :=
  (d.filter (fun p => pruneEntry p.2)).length

/-- Which alias-creation primitives succeed in this environment:
`fs.symlinkSync` and, as its fallback, `fs.copyFileSync`. -/
structure FsCaps where
  canSymlink : Bool
  canCopy : Bool
deriving DecidableEq

/-- The entry an alias creation produces: a (non-broken, since its target
was just checked to exist) symlink, or a full file copy when linking
fails. -/
def aliasEntry (caps : FsCaps) : FsEntry :=
  if caps.canSymlink then FsEntry.symlink false else FsEntry.file

/-- One iteration of the alias loop of `fixTinyTeXSymlinks` on the pair
`(fromName, toName)`, threading the number of aliases actually created:
if the source binary exists and the alias does not, try to link, fall back
to copying, and silently do nothing when both fail. -/
def createAliasC (caps : FsCaps) (st : Dir × Nat) (pr : String × String) : Dir × Nat :=
  if existsSyncD st.1 pr.1 = true ∧ existsSyncD st.1 pr.2 = false then
    if caps.canSymlink = true ∨ caps.canCopy = true then
      ((pr.2, aliasEntry caps) :: st.1, st.2 + 1)
    else st
  else st

/-- The whole alias loop. -/
def createAliases (caps : FsCaps) (d : Dir) (prs : List (String × String)) : Dir × Nat :=
  prs.foldl (createAliasC caps) (d, 0)

/-- `".exe"` suffix appended to both names of every pair on Windows. -/
def exeSfx (isWin : Bool) : String :=
  if isWin then ".exe" else ""

/-- The four fixed `(from, to)` alias pairs of `fixTinyTeXSymlinks`. -/
def symlinkPairs (isWin : Bool) : List (String × String) :=
  [("pdftex", "pdflatex"), ("tex", "latex"), ("luatex", "lualatex"), ("xetex", "xelatex")].map
    (fun pr => (pr.1 ++ exeSfx isWin, pr.2 ++ exeSfx isWin))

/-- Both phases of `fixTinyTeXSymlinks` on an existing bin directory:
resulting listing, number of deletions, number of alias creations. -/
def repairDir (caps : FsCaps) (isWin : Bool) (d : Dir) : Dir × Nat × Nat :=
  ((createAliases caps (removeBroken d) (symlinkPairs isWin)).1,
    brokenCount d,
    (createAliases caps (removeBroken d) (symlinkPairs isWin)).2)

/-- Observable outcome of one `fixTinyTeXSymlinks` call. -/
structure RepairOut where
  result : Option Dir
  deleted : Nat
  created : Nat
  ret : Bool
deriving DecidableEq

/-- `fixTinyTeXSymlinks` of install-latex.js: returns `false` without
touching anything when the bin directory does not exist (`none`),
otherwise prunes broken/uninspectable entries and creates the missing
aliases, returning `true`. -/
def fixTinyTeXSymlinks (caps : FsCaps) (isWin : Bool) : Option Dir → RepairOut
  | none => ⟨none, 0, 0, false⟩
  | some d =>
    ⟨some (repairDir caps isWin d).1, (repairDir caps isWin d).2.1,
      (repairDir caps isWin d).2.2, true⟩

/-! ## install-latex.js: download progress reporting -/

/-- State step of the `response.on('data')` handler of `downloadFile`:
accumulate the chunk length, compute `Math.floor(downloaded / total * 100)`
(exact arithmetic here), and log the percentage when it exceeds the last
logged one and is an exact multiple of ten.  State: downloaded bytes, last
logged percent, log so far. -/
def dlStep (total : Nat) (st : Nat × Nat × List Nat) (chunk : Nat) : Nat × Nat × List Nat :=
  let dl := st.1 + chunk
  let percent := dl * 100 / total
  if percent > st.2.1 ∧ percent % 10 = 0 then (dl, percent, st.2.2 ++ [percent])
  else (dl, st.2.1, st.2.2)

/-- The sequence of progress percentages logged by `downloadFile` for a
given `content-length` header (`none`: header missing, `parseInt` yields
`NaN`) and sequence of chunk sizes.  `totalSize` falsy (missing or zero)
disables all reporting. -/
def downloadProgress (totalSize : Option Nat) (chunks : List Nat) : List Nat :=
  match totalSize with
  | none => []
  | some t => if t = 0 then [] else (chunks.foldl (dlStep t) (0, 0, [])).2.2

/-! ## The CLI: argument parsing, conversion, orchestration -/

/-- `'--help'`. -/
def helpFlag : JStr := "--help".toList
/-- `'-h'`. -/
def hFlag : JStr := "-h".toList
/-- `'--install'`. -/
def installFlag : JStr := "--install".toList
/-- `'--engine='`. -/
def engineFlagPre : JStr := "--engine=".toList
/-- `'--'`. -/
def dashDash : JStr := "--".toList
/-- `'pdflatex'`. -/
def pdflatexStr : JStr := "pdflatex".toList
/-- `'xelatex'`. -/
def xelatexStr : JStr := "xelatex".toList
/-- `'Font'`. -/
def fontStr : JStr := "Font".toList
/-- The engine `main` initialises before scanning flags: `'xelatex'`. -/
def defaultEngine : JStr := "xelatex".toList
/-- Message of the error `runInstallScript` rejects with on a non-zero
child exit. -/
def installFailedMsg : JStr := "Installation failed".toList

/-- JS falsiness of the `outputFile` variable (`null` or `''`). -/
def jsFalsyStr : Option JStr → Bool
  | none => true
  | some [] => true
  | some (_ :: _) => false

/-- `arg.split('=')[1]` as used for `--engine=NAME` (the argument is known
to contain `'='`, so index 1 is defined; extra `'='`s are dropped). -/
def engEqSplit (arg : JStr) : JStr :=
  ((splitOnChar '=' arg).drop 1).headD []

/-- Default output path of `main`:
`path.join(path.parse(input).dir, path.parse(input).name + '.pdf')`. -/
def defaultOutputFile (inputFile : JStr) : JStr :=
  let db := parseDirBase inputFile
  let ne := extSplit db.2
  pathJoinL [db.1, ne.1 ++ ".pdf".toList]

/-- Modelled from the spec's words for comparison with the code: "the
default output path equals the input path with its extension replaced by
`.pdf`, in the same directory as the input" — the input string with its
extension (Node `extname` semantics on the base name) cut off and `.pdf`
appended. -/
def specDefaultOutput (p : JStr) : JStr :=
  let base := (parseDirBase p).2
  let ext := (extSplit base).2
  p.take (p.length - ext.length) ++ ".pdf".toList

/-- Result of the argument-scanning loop of `main` (lines scanning
`args[1..]`): a fatal unknown option, or input/output/engine resolved. -/
inductive ParsedArgs where
  | err (flag : JStr)
  | ok (input : JStr) (output : JStr) (engine : JStr)
deriving DecidableEq

/-- The argument-scanning loop of `main`: `--engine=` reassigns the engine,
any other `--` argument is a fatal unknown option, the first (JS-truthy
slot) positional becomes the output path, further positionals are ignored;
afterwards a falsy output path is defaulted from the input path. -/
def parseLoop : JStr → Option JStr → JStr → List JStr → ParsedArgs
  | inp, outF, eng, [] =>
    ParsedArgs.ok inp (if jsFalsyStr outF then defaultOutputFile inp else outF.getD []) eng
  | inp, outF, eng, arg :: rest =>
    if startsWithJ engineFlagPre arg then parseLoop inp outF (engEqSplit arg) rest
    else if startsWithJ dashDash arg then ParsedArgs.err arg
    else if jsFalsyStr outF then parseLoop inp (some arg) eng rest
    else parseLoop inp outF eng rest

/-- Positional/flag parsing of `main`: `args[0]` is the input file
(whatever it looks like), the rest is scanned by `parseLoop` starting from
engine `'xelatex'`. -/
def parseCmdArgs : List JStr → ParsedArgs
  | [] => ParsedArgs.err []
  | a :: rest => parseLoop a none defaultEngine rest

/-- Output-path projection of a parse result. -/
def parsedOutput : ParsedArgs → Option JStr
  | ParsedArgs.ok _ o _ => some o
  | ParsedArgs.err _ => none

/-- Environment of one CLI invocation.  `pre`/`post` are the locator's
view of the filesystem before and after a successful install run;
`installExit` is the exit code of the spawned install script;
`fileExists` is `fs.existsSync` for input paths; `engineResult eng` is the
outcome of invoking engine `eng` through node-latex (`none`: the PDF is
produced and the output stream finishes; `some msg`: the conversion
rejects with an error whose `.message` is `msg`). -/
structure OrchEnv where
  pre : FindEnv
  post : FindEnv
  installExit : Nat
  fileExists : JStr → Bool
  engineResult : JStr → Option JStr

/-- The locator environment the converter sees, depending on whether the
install script ran. -/
def envAt (env : OrchEnv) (installed : Bool) : FindEnv :=
  if installed then env.post else env.pre

/-- Outcome of one `convertFile` call. -/
inductive ConvResult where
  | exitedMissing
  | exitedNoEngine
  | ok
  | failed (msg : JStr)
deriving DecidableEq

/-- Externally observable actions of one invocation, in order. -/
inductive CliAction where
  | checkedLatex
  | ranInstall
  | repairedSymlinks
  | invokedEngine (engine : JStr)
deriving DecidableEq

/-- How the process run ends: an explicit `process.exit(code)` (or, for
code 0, `main` returning normally and the event loop draining), or a
rejection escaping `main()` uncaught (no `process.exit(0)` is executed;
current Node terminates such a process with a non-zero status). -/
inductive MainOutcome where
  | exited (code : Nat)
  | uncaught (msg : JStr)
deriving DecidableEq

/-- `convertFile` of the CLI: a missing input file exits the process with
status 1 before any engine resolution; an unresolvable engine path exits
with status 1; otherwise the engine is invoked exactly once and the call
resolves or rejects with the engine's message.  The returned action list
records engine invocations. -/
def convertFile (env : OrchEnv) (installed : Bool) (inputPath outputPath engine : JStr) :
    ConvResult × List CliAction :=
  if env.fileExists inputPath = false then (ConvResult.exitedMissing, [])
  else
    match getEnginePath (envAt env installed) engine with
    | none => (ConvResult.exitedNoEngine, [])
    | some _ =>
      match env.engineResult engine with
      | none => (ConvResult.ok, [CliAction.invokedEngine engine])
      | some m => (ConvResult.failed m, [CliAction.invokedEngine engine])

/-- The `try { await convertFile ... } catch` block of `main`: a rejection
whose engine was `'pdflatex'` and whose message contains `'Font'` triggers
exactly one retry with `'xelatex'`; every other rejection, and any failure
of the retry, exits with status 1.  Success exits with status 0. -/
def runConversion (env : OrchEnv) (installed : Bool) (inp out eng : JStr) :
    MainOutcome × List CliAction :=
  match convertFile env installed inp out eng with
  | (ConvResult.exitedMissing, a) => (MainOutcome.exited 1, a)
  | (ConvResult.exitedNoEngine, a) => (MainOutcome.exited 1, a)
  | (ConvResult.ok, a) => (MainOutcome.exited 0, a)
  | (ConvResult.failed msg, a) =>
    if eng = pdflatexStr ∧ isInfixJ fontStr msg = true then
      match convertFile env installed inp out xelatexStr with
      | (ConvResult.exitedMissing, a2) => (MainOutcome.exited 1, a ++ a2)
      | (ConvResult.exitedNoEngine, a2) => (MainOutcome.exited 1, a ++ a2)
      | (ConvResult.ok, a2) => (MainOutcome.exited 0, a ++ a2)
      | (ConvResult.failed _, a2) => (MainOutcome.exited 1, a ++ a2)
    else (MainOutcome.exited 1, a)

/-- `ensureLaTeX` of the CLI: if `hasLaTeX()` already holds, repair
symlinks and report ready; otherwise run the install script (collapsing
its spawn/exit outcome into `installExit`), repair and re-check on
success, and catch the rejection (printing guidance) on failure.
Returns (ready, actions, whether the install script ran and the post-install
filesystem view applies). -/
def ensureLaTeX (env : OrchEnv) : Bool × List CliAction × Bool :=
  if hasLaTeX env.pre then
    (true, [CliAction.checkedLatex, CliAction.repairedSymlinks], false)
  else if env.installExit = 0 then
    (hasLaTeX env.post,
      [CliAction.checkedLatex, CliAction.ranInstall, CliAction.repairedSymlinks, CliAction.checkedLatex],
      true)
  else
    (false, [CliAction.checkedLatex, CliAction.ranInstall], false)

/-- `main` of the CLI.  Help/empty argument list exits 0.  `--install`
awaits the install script with no surrounding try/catch: a zero exit leads
to `process.exit(0)`, a failure makes the `await` throw and the rejection
escapes `main` uncaught.  Otherwise `ensureLaTeX` runs first; only then are
the remaining arguments scanned, and the conversion (with its fallback)
runs last. -/
def mainRun (env : OrchEnv) (args : List JStr) : MainOutcome × List CliAction :=
  if args = [] ∨ memJ helpFlag args = true ∨ memJ hFlag args = true then
    (MainOutcome.exited 0, [])
  else if memJ installFlag args = true then
    if env.installExit = 0 then (MainOutcome.exited 0, [CliAction.ranInstall])
    else (MainOutcome.uncaught installFailedMsg, [CliAction.ranInstall])
  else
    match ensureLaTeX env with
    | (ready, acts, installed) =>
      if ready = false then (MainOutcome.exited 1, acts)
      else
        match parseCmdArgs args with
        | ParsedArgs.err _ => (MainOutcome.exited 1, acts)
        | ParsedArgs.ok inp out eng =>
          let r := runConversion env installed inp out eng
          (r.1, acts ++ r.2)

/-! ## Helper notions for the theorems -/

/-- A path component that survives normalization untouched: nonempty, free
of separators, and neither `"."` nor `".."`. -/
def cleanComp (c : JStr) : Prop :=
  c ≠ [] ∧ '/' ∉ c ∧ c ≠ ['.'] ∧ c ≠ ['.', '.']

instance (c : JStr) : Decidable (cleanComp c) := by
  unfold cleanComp; infer_instance

/-- Build a path from an absolute flag and components. -/
def mkPath (abs : Bool) (comps : List JStr) : JStr :=
  (if abs then ['/'] else []) ++ intercalateSlash comps

/-- The `dir` Node's parse assigns to `mkPath abs (ds ++ [b])`. -/
def mkDir (abs : Bool) (ds : List JStr) : JStr :=
  if ds = [] then (if abs then ['/'] else [])
  else (if abs then '/' :: intercalateSlash ds else intercalateSlash ds)

/-- The prefix of `mkPath abs (ds ++ [b])` before its base name. -/
def mkDirFront (abs : Bool) (ds : List JStr) : JStr :=
  (if abs then ['/'] else []) ++ (if ds = [] then [] else intercalateSlash ds ++ ['/'])

/-! ## Shared concrete environments and basic lemmas -/

/-- A Linux environment where the system `which pdflatex` probe succeeds. -/
def sysLinuxEnv : FindEnv :=
  ⟨some "/usr/bin".toList, [], Platform.linux, "/app".toList⟩

/-- A Linux environment where nothing resolves: no system LaTeX, empty
filesystem. -/
def bareLinuxEnv : FindEnv :=
  ⟨none, [], Platform.linux, "/app".toList⟩

theorem ensureLaTeX_no_engine (env : OrchEnv) (e : JStr) :
    CliAction.invokedEngine e ∉ (ensureLaTeX env).2.1 := by
  unfold ensureLaTeX
  split_ifs <;> simp

/-! ## C1: engine fallback -/

/-- Environment for the C1 counterexample: system LaTeX present, the input
file exists, and the default engine `xelatex` fails with a font-related
message. -/
def c1Env : OrchEnv :=
  ⟨sysLinuxEnv, sysLinuxEnv, 0, fun _ => true,
    fun e => if e = xelatexStr then some "Font shape error".toList else none⟩

/-- Claim C1 (counterexample): the tool's default engine is `xelatex`
(`main` initialises `engine = 'xelatex'`), yet when a conversion requested
with the default engine fails with a message containing `'Font'`, no retry
happens at all — the engine is invoked exactly once and the process exits
with status 1.  The claim predicted an automatic retry with the alternate
engine in exactly this situation. -/
theorem c1_counterexample :
    defaultEngine = xelatexStr ∧
    c1Env.engineResult defaultEngine = some "Font shape error".toList ∧
    isInfixJ fontStr "Font shape error".toList = true ∧
    mainRun c1Env ["doc.tex".toList] =
      (MainOutcome.exited 1,
        [CliAction.checkedLatex, CliAction.repairedSymlinks,
          CliAction.invokedEngine defaultEngine]) := by
  refine ⟨rfl, by decide, by decide, by decide⟩

/-- Claim C1 (amended): the conditional retry fires exactly when the
*requested* engine is `pdflatex` — which is not the tool's default
(`xelatex`) — and the failure message contains `'Font'`; the whole
conversion is then retried exactly once with `xelatex`, exiting 0 if the
retry succeeds and 1 if it fails.  Any other engine failure is terminal
with a single invocation and exit status 1. -/
theorem c1_retry_amended (env : OrchEnv) (inst : Bool) (inp out : JStr)
    (hf : env.fileExists inp = true)
    (hl : getLaTeXPath (envAt env inst) ≠ none) :
    (∀ msg, env.engineResult pdflatexStr = some msg → isInfixJ fontStr msg = true →
      env.engineResult xelatexStr = none →
      runConversion env inst inp out pdflatexStr =
        (MainOutcome.exited 0,
          [CliAction.invokedEngine pdflatexStr, CliAction.invokedEngine xelatexStr])) ∧
    (∀ msg msg2, env.engineResult pdflatexStr = some msg → isInfixJ fontStr msg = true →
      env.engineResult xelatexStr = some msg2 →
      runConversion env inst inp out pdflatexStr =
        (MainOutcome.exited 1,
          [CliAction.invokedEngine pdflatexStr, CliAction.invokedEngine xelatexStr])) ∧
    (∀ eng msg, env.engineResult eng = some msg →
      (eng ≠ pdflatexStr ∨ isInfixJ fontStr msg = false) →
      runConversion env inst inp out eng =
        (MainOutcome.exited 1, [CliAction.invokedEngine eng])) := by
  obtain ⟨lp, hlp⟩ : ∃ x, getLaTeXPath (envAt env inst) = some x :=
    Option.ne_none_iff_exists'.mp hl
  obtain ⟨lpp, lpo⟩ := lp
  have hE : ∀ eng, getEnginePath (envAt env inst) eng =
      some (pathJoinL [lpp, withExe (envAt env inst).platform eng]) := by
    intro eng; unfold getEnginePath; rw [hlp]
  have hcf : ∀ eng, convertFile env inst inp out eng =
      (match env.engineResult eng with
       | none => (ConvResult.ok, [CliAction.invokedEngine eng])
       | some m => (ConvResult.failed m, [CliAction.invokedEngine eng])) := by
    intro eng
    unfold convertFile
    rw [if_neg (by simp [hf]), hE eng]
  refine ⟨?_, ?_, ?_⟩
  · intro msg hp hfont hx
    unfold runConversion
    rw [hcf pdflatexStr, hp, hcf xelatexStr, hx]
    simp [hfont]
  · intro msg msg2 hp hfont hx
    unfold runConversion
    rw [hcf pdflatexStr, hp, hcf xelatexStr, hx]
    simp [hfont]
  · intro eng msg hm hnot
    unfold runConversion
    rw [hcf eng, hm]
    rcases hnot with h | h
    · simp [h]
    · simp [h]

/-- Environment for the C1 witness: `pdflatex` fails with a font message,
`xelatex` succeeds. -/
def c1wEnv : OrchEnv :=
  ⟨sysLinuxEnv, sysLinuxEnv, 0, fun _ => true,
    fun e => if e = pdflatexStr then some "Font U/x undefined".toList else none⟩

theorem c1_retry_witness :
    c1wEnv.fileExists "doc.tex".toList = true ∧
    runConversion c1wEnv false "doc.tex".toList "doc.pdf".toList pdflatexStr =
      (MainOutcome.exited 0,
        [CliAction.invokedEngine pdflatexStr, CliAction.invokedEngine xelatexStr]) :=
  ⟨rfl,
    (c1_retry_amended c1wEnv false "doc.tex".toList "doc.pdf".toList rfl (by decide)).1
      "Font U/x undefined".toList (by decide) (by decide) (by decide)⟩

/-! ## C2: --install exit status -/

/-- Environment for the C2 counterexample: the install script exits 3. -/
def c2Env : OrchEnv :=
  ⟨sysLinuxEnv, sysLinuxEnv, 3, fun _ => true, fun _ => none⟩

/-- Claim C2 (counterexample): with `--install` and a failing installation,
the Provisioner runs but the process does *not* exit 0 — the rejection of
`runInstallScript` escapes `main` uncaught (so `process.exit(0)` is never
executed and current Node terminates the process abnormally). -/
theorem c2_counterexample :
    (mainRun c2Env [installFlag]).2 = [CliAction.ranInstall] ∧
    (mainRun c2Env [installFlag]).1 = MainOutcome.uncaught installFailedMsg ∧
    (mainRun c2Env [installFlag]).1 ≠ MainOutcome.exited 0 := by
  refine ⟨by decide, by decide, by decide⟩

/-- Claim C2 (amended): with `--install` present (and no help flag), the
Provisioner always runs; the process exits 0 iff the installation
succeeded, and on failure the `await`'s rejection escapes `main` uncaught
— no `process.exit(0)` is performed. -/
theorem c2_install_amended (env : OrchEnv) (args : List JStr)
    (h1 : memJ helpFlag args = false) (h2 : memJ hFlag args = false)
    (h3 : memJ installFlag args = true) :
    (env.installExit = 0 →
      mainRun env args = (MainOutcome.exited 0, [CliAction.ranInstall])) ∧
    (env.installExit ≠ 0 →
      mainRun env args = (MainOutcome.uncaught installFailedMsg, [CliAction.ranInstall])) := by
  have hne : args ≠ [] := by
    intro h; rw [h] at h3; exact absurd h3 (by simp [memJ])
  have hcond : ¬(args = [] ∨ memJ helpFlag args = true ∨ memJ hFlag args = true) := by
    simp [hne, h1, h2]
  unfold mainRun
  rw [if_neg hcond, if_pos h3]
  exact ⟨fun h0 => by rw [if_pos h0], fun h0 => by rw [if_neg h0]⟩

/-- Environment for the C2 witness: the install script exits 0. -/
def c2wEnv : OrchEnv :=
  ⟨sysLinuxEnv, sysLinuxEnv, 0, fun _ => true, fun _ => none⟩

theorem c2_install_witness :
    memJ installFlag [installFlag] = true ∧
    mainRun c2wEnv [installFlag] = (MainOutcome.exited 0, [CliAction.ranInstall]) :=
  ⟨by decide,
    (c2_install_amended c2wEnv [installFlag] (by decide) (by decide) (by decide)).1 rfl⟩

/-! ## C6: missing input file -/

/-- Claim C6: for every input path that does not exist, the Converter
exits the process with status 1 before resolving or invoking any engine,
and no retry of any kind happens. -/
theorem c6_missing_input (env : OrchEnv) (inst : Bool) (inp out eng : JStr)
    (h : env.fileExists inp = false) :
    convertFile env inst inp out eng = (ConvResult.exitedMissing, []) ∧
    runConversion env inst inp out eng = (MainOutcome.exited 1, []) := by
  have hc : convertFile env inst inp out eng = (ConvResult.exitedMissing, []) := by
    unfold convertFile; rw [if_pos h]
  refine ⟨hc, ?_⟩
  unfold runConversion
  rw [hc]

/-- Environment for the C6 witness: no file exists. -/
def c6wEnv : OrchEnv :=
  ⟨sysLinuxEnv, sysLinuxEnv, 0, fun _ => false, fun _ => none⟩

theorem c6_missing_input_witness :
    c6wEnv.fileExists "missing.tex".toList = false ∧
    runConversion c6wEnv false "missing.tex".toList "out.pdf".toList defaultEngine =
      (MainOutcome.exited 1, []) :=
  ⟨rfl,
    (c6_missing_input c6wEnv false "missing.tex".toList "out.pdf".toList defaultEngine rfl).2⟩

/-! ## C3: unknown flags -/

/-- An argument the scanning loop treats as a fatal unknown option:
it starts with `--` but not with `--engine=`. -/
def unknownFlag (a : JStr) : Prop :=
  startsWithJ dashDash a = true ∧ startsWithJ engineFlagPre a = false

instance (a : JStr) : Decidable (unknownFlag a) := by
  unfold unknownFlag; infer_instance

theorem parseLoop_err (inp : JStr) :
    ∀ (rest : List JStr) (outF : Option JStr) (eng : JStr),
      (∃ a ∈ rest, unknownFlag a) →
      ∃ f, parseLoop inp outF eng rest = ParsedArgs.err f := by
  intro rest
  induction rest with
  | nil =>
    intro _ _ h
    rcases h with ⟨a, ha, _⟩
    cases ha
  | cons a t ih =>
    intro outF eng h
    by_cases he : startsWithJ engineFlagPre a = true
    · have h' : ∃ b ∈ t, unknownFlag b := by
        rcases h with ⟨b, hb, hub⟩
        rcases List.mem_cons.mp hb with rfl | hbt
        · exact absurd he (by simp [hub.2])
        · exact ⟨b, hbt, hub⟩
      unfold parseLoop
      rw [if_pos he]
      exact ih outF (engEqSplit a) h'
    · by_cases hd : startsWithJ dashDash a = true
      · refine ⟨a, ?_⟩
        unfold parseLoop
        rw [if_neg he, if_pos hd]
      · have h' : ∃ b ∈ t, unknownFlag b := by
          rcases h with ⟨b, hb, hub⟩
          rcases List.mem_cons.mp hb with rfl | hbt
          · exact absurd hub.1 hd
          · exact ⟨b, hbt, hub⟩
        unfold parseLoop
        rw [if_neg he, if_neg hd]
        by_cases ho : jsFalsyStr outF = true
        · rw [if_pos ho]; exact ih (some a) eng h'
        · rw [if_neg ho]; exact ih outF eng h'

/-- Environment for the C3 counterexample: nothing installed at first, the
install succeeds and the post-install filesystem resolves. -/
def c3Env : OrchEnv :=
  ⟨bareLinuxEnv, sysLinuxEnv, 0, fun _ => true, fun _ => none⟩

/-- Claim C3 (counterexample): with an unknown flag `--verbose` among the
arguments, the process does exit non-zero, but only *after* the
engine-availability check and even a full installation have run — the
action trace contains the availability checks and the install, refuting
"no partial execution". -/
theorem c3_counterexample :
    mainRun c3Env ["doc.tex".toList, "--verbose".toList] =
      (MainOutcome.exited 1,
        [CliAction.checkedLatex, CliAction.ranInstall, CliAction.repairedSymlinks,
          CliAction.checkedLatex]) ∧
    CliAction.ranInstall ∈ (mainRun c3Env ["doc.tex".toList, "--verbose".toList]).2 ∧
    CliAction.checkedLatex ∈ (mainRun c3Env ["doc.tex".toList, "--verbose".toList]).2 := by
  refine ⟨by decide, by decide, by decide⟩

/-- Claim C3 (amended): an argument in position ≥ 1 starting with `--` that
is not `--help`, `-h`, `--install` or `--engine=...` makes the process exit
with status 1 and no engine is ever invoked (no conversion); however, the
engine-availability check — and, when nothing is installed, the automatic
installation — runs *before* the flag is rejected, and a flag-like
`args[0]` is never rejected at all (it is taken as the input path). -/
theorem c3_unknown_flag_amended (env : OrchEnv) (args : List JStr)
    (h1 : memJ helpFlag args = false) (h2 : memJ hFlag args = false)
    (h3 : memJ installFlag args = false)
    (h4 : ∃ a ∈ args.tail, unknownFlag a) :
    (mainRun env args).1 = MainOutcome.exited 1 ∧
    ∀ e, CliAction.invokedEngine e ∉ (mainRun env args).2 := by
  obtain ⟨a0, rest, rfl⟩ : ∃ a0 rest, args = a0 :: rest := by
    cases args with
    | nil => rcases h4 with ⟨a, ha, _⟩; cases ha
    | cons x t => exact ⟨x, t, rfl⟩
  have hcond : ¬(a0 :: rest = [] ∨ memJ helpFlag (a0 :: rest) = true ∨
      memJ hFlag (a0 :: rest) = true) := by
    simp [h1, h2]
  unfold mainRun
  rw [if_neg hcond, if_neg (by simp [h3])]
  rcases hE : ensureLaTeX env with ⟨ready, acts, installed⟩
  have hacts : ∀ e, CliAction.invokedEngine e ∉ acts := by
    intro e
    have h := ensureLaTeX_no_engine env e
    rw [hE] at h
    exact h
  simp only []
  by_cases hr : ready = false
  · rw [if_pos hr]
    exact ⟨rfl, hacts⟩
  · rw [if_neg hr]
    obtain ⟨f, hf⟩ := parseLoop_err a0 rest none defaultEngine (by simpa using h4)
    have hp : parseCmdArgs (a0 :: rest) = ParsedArgs.err f := hf
    rw [hp]
    exact ⟨rfl, hacts⟩

theorem c3_unknown_flag_witness :
    (∃ a ∈ ["doc.tex".toList, "--frob".toList].tail, unknownFlag a) ∧
    (mainRun c3Env ["doc.tex".toList, "--frob".toList]).1 = MainOutcome.exited 1 ∧
    CliAction.invokedEngine xelatexStr ∉
      (mainRun c3Env ["doc.tex".toList, "--frob".toList]).2 := by
  have h := c3_unknown_flag_amended c3Env ["doc.tex".toList, "--frob".toList]
    (by decide) (by decide) (by decide) (by decide)
  exact ⟨by decide, h.1, h.2 xelatexStr⟩

/-! ## C8: download progress -/

/-- Claim C8 (counterexample): with a known content-length of 100 bytes, a
single 15-byte chunk crosses the first 10%-of-total increment, yet no
progress line is reported: the handler logs only when the floored
percentage lands exactly on a multiple of ten. -/
theorem c8_counterexample :
    downloadProgress (some 100) [15] = [] ∧ 10 ≤ 15 * 100 / 100 := by
  refine ⟨by decide, by decide⟩

/-- Invariant of the download-progress fold: logged percentages are
positive multiples of ten, strictly increasing, and bounded by the last
logged percentage. -/
def dlInv (st : Nat × Nat × List Nat) : Prop :=
  (∀ p ∈ st.2.2, p % 10 = 0 ∧ 0 < p) ∧
  List.Chain' (fun a b => a < b) st.2.2 ∧
  (∀ p ∈ st.2.2, p ≤ st.2.1)

theorem dlStep_inv (total : Nat) (st : Nat × Nat × List Nat) (chunk : Nat)
    (h : dlInv st) : dlInv (dlStep total st chunk) := by
  obtain ⟨h1, h2, h3⟩ := h
  unfold dlStep
  by_cases hc : (st.1 + chunk) * 100 / total > st.2.1 ∧ (st.1 + chunk) * 100 / total % 10 = 0
  · rw [if_pos hc]
    refine ⟨?_, ?_, ?_⟩
    · intro p hp
      rcases List.mem_append.mp hp with hp | hp
      · exact h1 p hp
      · rcases List.mem_singleton.mp hp with rfl
        exact ⟨hc.2, Nat.lt_of_le_of_lt (Nat.zero_le _) hc.1⟩
    · rw [List.chain'_append]
      refine ⟨h2, List.chain'_singleton _, ?_⟩
      intro x hx y hy
      rw [List.head?_cons, Option.mem_some_iff] at hy
      subst hy
      have hxm : x ∈ st.2.2 := List.mem_of_mem_getLast? hx
      exact Nat.lt_of_le_of_lt (h3 x hxm) hc.1
    · intro p hp
      rcases List.mem_append.mp hp with hp | hp
      · exact Nat.le_of_lt (Nat.lt_of_le_of_lt (h3 p hp) hc.1)
      · rcases List.mem_singleton.mp hp with rfl
        exact Nat.le_refl _
  · rw [if_neg hc]
    exact ⟨h1, h2, h3⟩

theorem dlFold_inv (total : Nat) :
    ∀ (chunks : List Nat) (st : Nat × Nat × List Nat), dlInv st →
      dlInv (chunks.foldl (dlStep total) st) := by
  intro chunks
  induction chunks with
  | nil => intro st h; exact h
  | cons c t ih => intro st h; exact ih _ (dlStep_inv total st c h)

/-- Claim C8 (amended): when no content-length is known (header missing or
zero), no progress is ever reported; when one is known, a line is logged
only when the floored cumulative percentage is an exact positive multiple
of ten exceeding the last logged one — so the log is a strictly increasing
sequence of positive multiples of ten (10%-increments crossed without
landing exactly on a multiple of ten are silently skipped, as the
counterexample shows), and chunks landing exactly on successive multiples
are all reported. -/
theorem c8_progress_amended :
    (∀ chunks, downloadProgress none chunks = []) ∧
    (∀ chunks, downloadProgress (some 0) chunks = []) ∧
    (∀ t chunks,
      (∀ p ∈ downloadProgress (some t) chunks, p % 10 = 0 ∧ 0 < p) ∧
      List.Chain' (fun a b => a < b) (downloadProgress (some t) chunks)) ∧
    downloadProgress (some 100) [10, 10, 10] = [10, 20, 30] := by
  refine ⟨fun chunks => rfl, fun chunks => rfl, ?_, by decide⟩
  intro t chunks
  by_cases ht : t = 0
  · subst ht
    constructor
    · intro p hp
      simp [downloadProgress] at hp
    · simp [downloadProgress]
  · have h : dlInv (chunks.foldl (dlStep t) (0, 0, [])) :=
      dlFold_inv t chunks (0, 0, []) ⟨by simp, by simp, by simp⟩
    have hd : downloadProgress (some t) chunks = (chunks.foldl (dlStep t) (0, 0, [])).2.2 := by
      simp only [downloadProgress]
      rw [if_neg ht]
    rw [hd]
    exact ⟨h.1, h.2.1⟩

/-! ## C9 and C10: locator probes -/

theorem pathNormalize_ne_nil (p : JStr) : pathNormalize p ≠ [] := by
  unfold pathNormalize
  by_cases hp : p = []
  · rw [if_pos hp]; simp
  · rw [if_neg hp]
    simp only []
    split_ifs with h1 h2 h3 h4 h5 h6
    · simp
    · simp
    · simp
    · simp
    · simp
    · simp
    · simp only [List.nil_append, List.append_nil]
      exact h1

theorem pathJoinL_ne_nil (parts : List JStr) : pathJoinL parts ≠ [] := by
  unfold pathJoinL
  simp only []
  split_ifs
  · simp
  · exact pathNormalize_ne_nil _

theorem getTinyTeXBinPath_ne_nil (env : FindEnv) : getTinyTeXBinPath env ≠ [] :=
  pathJoinL_ne_nil _

/-- Environment on which `checkTinyTeXInstalled` succeeds but `findTinyTeX`
fails: only the xelatex binary is vendored. -/
def c9aEnv : FindEnv :=
  ⟨none, ["/pkg/.tinytex/bin/x86_64-linux/xelatex".toList], Platform.linux, "/pkg".toList⟩

/-- Environment on which `findTinyTeX` succeeds but `checkTinyTeXInstalled`
fails: only the pdflatex binary is vendored. -/
def c9bEnv : FindEnv :=
  ⟨none, ["/pkg/.tinytex/bin/x86_64-linux/pdflatex".toList], Platform.linux, "/pkg".toList⟩

/-- Claim C9: `checkTinyTeXInstalled` holds iff the *xelatex* binary exists
in the vendored bin directory while `findTinyTeX` resolves iff *pdflatex*
exists there; consequently there are directory states where the Provisioner
reports "already installed" but the Locator resolves nothing, and vice
versa. -/
theorem c9_probe_divergence :
    (∀ env, checkTinyTeXInstalled env =
      existsSyncP env (pathJoinL [getTinyTeXBinPath env, withExe env.platform "xelatex".toList])) ∧
    (∀ env, (findTinyTeX env).isSome =
      existsSyncP env (pathJoinL [getTinyTeXBinPath env, withExe env.platform "pdflatex".toList])) ∧
    (checkTinyTeXInstalled c9aEnv = true ∧ findTinyTeX c9aEnv = none) ∧
    (checkTinyTeXInstalled c9bEnv = false ∧ (findTinyTeX c9bEnv).isSome = true) := by
  refine ⟨?_, ?_, ⟨by decide, by decide⟩, ⟨by decide, by decide⟩⟩
  · intro env
    unfold checkTinyTeXInstalled
    simp only []
    rw [if_neg (getTinyTeXBinPath_ne_nil env)]
  · intro env
    have hbin : getTinyTeXBinPath env =
        pathJoinL [INSTALL_DIR env, "bin".toList, platSubdir env.platform] := rfl
    unfold findTinyTeX
    simp only []
    rw [← hbin]
    split_ifs with h
    · rw [h]; rfl
    · simp only [Bool.not_eq_true] at h
      rw [h]; rfl

/-- Claim C10: `getEnginePath` resolves for *every* engine name string
exactly when some LaTeX location (system or vendored) resolves — the
requested engine's existence at the returned path is never checked — and
the Converter's "engine not found" exit is therefore triggered exactly by
the absence of any installation. -/
theorem c10_engine_path :
    (∀ env eng, (getEnginePath env eng).isSome = (getLaTeXPath env).isSome) ∧
    (∀ env e1 e2, (getEnginePath env e1).isSome = (getEnginePath env e2).isSome) ∧
    (getEnginePath c9bEnv "notanengine".toList =
        some "/pkg/.tinytex/bin/x86_64-linux/notanengine".toList ∧
      existsSyncP c9bEnv "/pkg/.tinytex/bin/x86_64-linux/notanengine".toList = false) ∧
    (∀ env inst inp out eng, env.fileExists inp = true →
      ((convertFile env inst inp out eng).1 = ConvResult.exitedNoEngine ↔
        getLaTeXPath (envAt env inst) = none)) := by
  have h1 : ∀ env eng, (getEnginePath env eng).isSome = (getLaTeXPath env).isSome := by
    intro env eng
    unfold getEnginePath
    cases h : getLaTeXPath env with
    | none => simp
    | some pr => obtain ⟨p, o⟩ := pr; simp
  refine ⟨h1, fun env e1 e2 => by rw [h1 env e1, h1 env e2], ⟨by decide, by decide⟩, ?_⟩
  intro env inst inp out eng hf
  unfold convertFile
  rw [if_neg (by simp [hf])]
  cases hL : getLaTeXPath (envAt env inst) with
  | none =>
    have hE : getEnginePath (envAt env inst) eng = none := by
      unfold getEnginePath; rw [hL]
    rw [hE]
    simp
  | some pr =>
    obtain ⟨p, o⟩ := pr
    have hE : getEnginePath (envAt env inst) eng =
        some (pathJoinL [p, withExe (envAt env inst).platform eng]) := by
      unfold getEnginePath; rw [hL]
    rw [hE]
    cases env.engineResult eng <;> simp

/-- Environment for the C10 witness: input file exists, nothing resolves. -/
def c10wEnv : OrchEnv :=
  ⟨bareLinuxEnv, bareLinuxEnv, 0, fun _ => true, fun _ => none⟩

theorem c10_engine_path_witness :
    c10wEnv.fileExists "doc.tex".toList = true ∧
    ((convertFile c10wEnv false "doc.tex".toList "doc.pdf".toList pdflatexStr).1 =
        ConvResult.exitedNoEngine ↔ getLaTeXPath (envAt c10wEnv false) = none) :=
  ⟨rfl, c10_engine_path.2.2.2 c10wEnv false "doc.tex".toList "doc.pdf".toList pdflatexStr rfl⟩

/-! ## C4 and C5: the symlink-repair pass -/

theorem lookupEntry_cons (m : String) (e : FsEntry) (d : Dir) (n : String) :
    lookupEntry ((m, e) :: d) n = if m = n then some e else lookupEntry d n := rfl

theorem existsSyncD_cons (m : String) (e : FsEntry) (d : Dir) (n : String) :
    existsSyncD ((m, e) :: d) n =
      if m = n then entryAccessible (some e) else existsSyncD d n := by
  unfold existsSyncD
  rw [lookupEntry_cons]
  split_ifs <;> rfl

theorem entryAccessible_alias (caps : FsCaps) :
    entryAccessible (some (aliasEntry caps)) = true := by
  unfold aliasEntry
  split_ifs <;> rfl

theorem pruneEntry_alias (caps : FsCaps) : pruneEntry (aliasEntry caps) = false := by
  unfold aliasEntry
  split_ifs <;> rfl

theorem createAliasC_eq (caps : FsCaps) (st : Dir × Nat) (pr : String × String) :
    createAliasC caps st pr =
      if existsSyncD st.1 pr.1 = true ∧ existsSyncD st.1 pr.2 = false ∧
          (caps.canSymlink = true ∨ caps.canCopy = true) then
        ((pr.2, aliasEntry caps) :: st.1, st.2 + 1)
      else st := by
  unfold createAliasC
  split_ifs <;> first | rfl | tauto

theorem lookup_foldCreate_preserve (caps : FsCaps) (n : String) :
    ∀ (prs : List (String × String)) (st : Dir × Nat),
      (∀ pr ∈ prs, pr.2 ≠ n) →
      lookupEntry (prs.foldl (createAliasC caps) st).1 n = lookupEntry st.1 n := by
  intro prs
  induction prs with
  | nil => intro st _; rfl
  | cons pr t ih =>
    intro st h
    rw [List.foldl_cons, createAliasC_eq]
    split_ifs with hc
    · rw [ih _ (fun q hq => h q (List.mem_cons_of_mem pr hq))]
      exact if_neg (h pr (List.mem_cons_self pr t))
    · exact ih st (fun q hq => h q (List.mem_cons_of_mem pr hq))

theorem exists_foldCreate_preserve (caps : FsCaps) (n : String)
    (prs : List (String × String)) (st : Dir × Nat)
    (h : ∀ pr ∈ prs, pr.2 ≠ n) :
    existsSyncD (prs.foldl (createAliasC caps) st).1 n = existsSyncD st.1 n := by
  unfold existsSyncD
  rw [lookup_foldCreate_preserve caps n prs st h]

theorem exists_foldCreate_mono (caps : FsCaps) (n : String) :
    ∀ (prs : List (String × String)) (st : Dir × Nat),
      existsSyncD st.1 n = true →
      existsSyncD (prs.foldl (createAliasC caps) st).1 n = true := by
  intro prs
  induction prs with
  | nil => intro st h; exact h
  | cons pr t ih =>
    intro st h
    rw [List.foldl_cons, createAliasC_eq]
    split_ifs with hc
    · refine ih _ ?_
      rw [existsSyncD_cons]
      split_ifs with hm
      · exact entryAccessible_alias caps
      · exact h
    · exact ih st h

theorem lookup_foldCreate_accessible (caps : FsCaps) (n : String) :
    ∀ (prs : List (String × String)) (st : Dir × Nat),
      existsSyncD st.1 n = true →
      lookupEntry (prs.foldl (createAliasC caps) st).1 n = lookupEntry st.1 n := by
  intro prs
  induction prs with
  | nil => intro st _; rfl
  | cons pr t ih =>
    intro st h
    rw [List.foldl_cons, createAliasC_eq]
    split_ifs with hc
    · have hm : pr.2 ≠ n := by
        intro he
        rw [he] at hc
        rw [hc.2.1] at h
        cases h
      have h' : existsSyncD ((pr.2, aliasEntry caps) :: st.1) n = true := by
        rw [existsSyncD_cons, if_neg hm]
        exact h
      rw [ih _ h', lookupEntry_cons, if_neg hm]
    · exact ih st h

theorem foldCreate_noop (caps : FsCaps) (d : Dir) (c : Nat) :
    ∀ (prs : List (String × String)),
      (∀ pr ∈ prs, ¬(existsSyncD d pr.1 = true ∧ existsSyncD d pr.2 = false ∧
        (caps.canSymlink = true ∨ caps.canCopy = true))) →
      prs.foldl (createAliasC caps) (d, c) = (d, c) := by
  intro prs
  induction prs with
  | nil => intro _; rfl
  | cons pr t ih =>
    intro h
    rw [List.foldl_cons, createAliasC_eq, if_neg (h pr (List.mem_cons_self pr t))]
    exact ih (fun q hq => h q (List.mem_cons_of_mem pr hq))

theorem mem_foldCreate (caps : FsCaps) :
    ∀ (prs : List (String × String)) (st : Dir × Nat) (p : String × FsEntry),
      p ∈ (prs.foldl (createAliasC caps) st).1 → p ∈ st.1 ∨ p.2 = aliasEntry caps := by
  intro prs
  induction prs with
  | nil => intro st p h; exact Or.inl h
  | cons pr t ih =>
    intro st p h
    rw [List.foldl_cons, createAliasC_eq] at h
    split_ifs at h with hc
    · rcases ih _ p h with h' | h'
      · rcases List.mem_cons.mp h' with rfl | h''
        · exact Or.inr rfl
        · exact Or.inl h''
      · exact Or.inr h'
    · exact ih st p h

/-- Distinctness of the alias pairs: no two pairs share an alias name, and
no source name is an alias name. -/
def pairsWF (prs : List (String × String)) : Prop :=
  (prs.map Prod.snd).Nodup ∧ ∀ pr ∈ prs, pr.1 ∉ prs.map Prod.snd

theorem pairsWF_tail (pr0 : String × String) (t : List (String × String))
    (h : pairsWF (pr0 :: t)) : pairsWF t := by
  obtain ⟨hnd, hni⟩ := h
  rw [List.map_cons, List.nodup_cons] at hnd
  refine ⟨hnd.2, ?_⟩
  intro q hq hcon
  refine hni q (List.mem_cons_of_mem pr0 hq) ?_
  rw [List.map_cons]
  exact List.mem_cons_of_mem _ hcon

theorem pairsWF_head_snd (pr0 : String × String) (t : List (String × String))
    (h : pairsWF (pr0 :: t)) : pr0.2 ∉ t.map Prod.snd := by
  have hnd := h.1
  rw [List.map_cons, List.nodup_cons] at hnd
  exact hnd.1

theorem symlinkPairs_wf (isWin : Bool) : pairsWF (symlinkPairs isWin) := by
  cases isWin <;> exact ⟨by decide, by decide⟩

theorem foldCreate_stable (caps : FsCaps)
    (hcap : caps.canSymlink = true ∨ caps.canCopy = true) :
    ∀ (prs : List (String × String)), pairsWF prs →
      ∀ (st : Dir × Nat) (pr : String × String), pr ∈ prs →
        ¬(existsSyncD (prs.foldl (createAliasC caps) st).1 pr.1 = true ∧
          existsSyncD (prs.foldl (createAliasC caps) st).1 pr.2 = false) := by
  intro prs
  induction prs with
  | nil => intro _ st pr h; cases h
  | cons pr0 t ih =>
    intro hwf st pr hmem
    rw [List.foldl_cons]
    rcases List.mem_cons.mp hmem with rfl | hmt
    · rw [createAliasC_eq]
      split_ifs with hc
      · intro hcon
        have hacc : existsSyncD
            (t.foldl (createAliasC caps) ((pr.2, aliasEntry caps) :: st.1, st.2 + 1)).1 pr.2 =
              true := by
          refine exists_foldCreate_mono caps pr.2 t _ ?_
          rw [existsSyncD_cons, if_pos rfl]
          exact entryAccessible_alias caps
        rw [hcon.2] at hacc
        cases hacc
      · have hab : ¬(existsSyncD st.1 pr.1 = true ∧ existsSyncD st.1 pr.2 = false) := by
          intro hcon
          exact hc ⟨hcon.1, hcon.2, hcap⟩
        intro hcon
        rw [exists_foldCreate_preserve caps pr.1 t st ?_,
            exists_foldCreate_preserve caps pr.2 t st ?_] at hcon
        · exact hab hcon
        · intro q hq hq2
          exact pairsWF_head_snd pr t hwf (hq2 ▸ List.mem_map_of_mem Prod.snd hq)
        · intro q hq hq2
          refine hwf.2 pr (List.mem_cons_self pr t) ?_
          rw [List.map_cons]
          exact List.mem_cons_of_mem _ (hq2 ▸ List.mem_map_of_mem Prod.snd hq)
    · exact ih (pairsWF_tail pr0 t hwf) _ pr hmt

theorem foldCreate_no_create (caps : FsCaps) :
    ∀ (prs : List (String × String)), pairsWF prs →
      ∀ (st : Dir × Nat) (fr tn : String), (fr, tn) ∈ prs →
        existsSyncD st.1 fr = false → existsSyncD st.1 tn = false →
        existsSyncD (prs.foldl (createAliasC caps) st).1 tn = false := by
  intro prs
  induction prs with
  | nil => intro _ st fr tn h; cases h
  | cons pr0 t ih =>
    intro hwf st fr tn hmem hf ht
    rw [List.foldl_cons]
    rcases List.mem_cons.mp hmem with heq | hmt
    · cases heq
      rw [createAliasC_eq, if_neg ?_]
      · rw [exists_foldCreate_preserve caps tn t st ?_]
        · exact ht
        · intro q hq hq2
          exact pairsWF_head_snd (fr, tn) t hwf (List.mem_map.mpr ⟨q, hq, hq2⟩)
      · intro hcon
        rw [hf] at hcon
        cases hcon.1
    · have hto : pr0.2 ≠ tn := by
        intro he
        refine pairsWF_head_snd pr0 t hwf ?_
        rw [he]
        exact List.mem_map_of_mem Prod.snd hmt
      have hfr : pr0.2 ≠ fr := by
        intro he
        refine hwf.2 (fr, tn) hmem ?_
        rw [List.map_cons, ← he]
        exact List.mem_cons_self _ _
      rw [createAliasC_eq]
      split_ifs with hc
      · refine ih (pairsWF_tail pr0 t hwf) _ fr tn hmt ?_ ?_
        · rw [existsSyncD_cons, if_neg hfr]; exact hf
        · rw [existsSyncD_cons, if_neg hto]; exact ht
      · exact ih (pairsWF_tail pr0 t hwf) st fr tn hmt hf ht

theorem foldCreate_create (caps : FsCaps)
    (hcap : caps.canSymlink = true ∨ caps.canCopy = true) :
    ∀ (prs : List (String × String)), pairsWF prs →
      ∀ (st : Dir × Nat) (fr tn : String), (fr, tn) ∈ prs →
        existsSyncD st.1 fr = true → existsSyncD st.1 tn = false →
        lookupEntry (prs.foldl (createAliasC caps) st).1 tn = some (aliasEntry caps) := by
  intro prs
  induction prs with
  | nil => intro _ st fr tn h; cases h
  | cons pr0 t ih =>
    intro hwf st fr tn hmem hf ht
    rw [List.foldl_cons]
    rcases List.mem_cons.mp hmem with heq | hmt
    · cases heq
      rw [createAliasC_eq, if_pos ⟨hf, ht, hcap⟩]
      rw [lookup_foldCreate_preserve caps tn t _ ?_]
      · rw [lookupEntry_cons, if_pos rfl]
      · intro q hq hq2
        exact pairsWF_head_snd (fr, tn) t hwf (List.mem_map.mpr ⟨q, hq, hq2⟩)
    · have hto : pr0.2 ≠ tn := by
        intro he
        refine pairsWF_head_snd pr0 t hwf ?_
        rw [he]
        exact List.mem_map_of_mem Prod.snd hmt
      have hfr : pr0.2 ≠ fr := by
        intro he
        refine hwf.2 (fr, tn) hmem ?_
        rw [List.map_cons, ← he]
        exact List.mem_cons_self _ _
      rw [createAliasC_eq]
      split_ifs with hc
      · refine ih (pairsWF_tail pr0 t hwf) _ fr tn hmt ?_ ?_
        · rw [existsSyncD_cons, if_neg hfr]; exact hf
        · rw [existsSyncD_cons, if_neg hto]; exact ht
      · exact ih (pairsWF_tail pr0 t hwf) st fr tn hmt hf ht

theorem mem_removeBroken (d : Dir) (p : String × FsEntry) :
    p ∈ removeBroken d ↔ p ∈ d ∧ pruneEntry p.2 = false := by
  unfold removeBroken
  rw [List.mem_filter]
  simp

theorem removeBroken_eq_self (d : Dir) (h : ∀ p ∈ d, pruneEntry p.2 = false) :
    removeBroken d = d := by
  unfold removeBroken
  rw [List.filter_eq_self]
  intro a ha
  simp [h a ha]

theorem brokenCount_eq_zero (d : Dir) (h : ∀ p ∈ d, pruneEntry p.2 = false) :
    brokenCount d = 0 := by
  unfold brokenCount
  rw [List.length_eq_zero, List.filter_eq_nil]
  intro a ha
  simp [h a ha]

theorem lookupEntry_none_of_not_mem (n : String) :
    ∀ (d : Dir), (∀ p ∈ d, p.1 ≠ n) → lookupEntry d n = none := by
  intro d
  induction d with
  | nil => intro _; rfl
  | cons q t ih =>
    intro h
    obtain ⟨m, e⟩ := q
    rw [lookupEntry_cons, if_neg (h (m, e) (List.mem_cons_self _ _))]
    exact ih (fun p hp => h p (List.mem_cons_of_mem _ hp))

theorem existsSyncD_removeBroken (n : String) :
    ∀ (d : Dir), (d.map Prod.fst).Nodup →
      existsSyncD (removeBroken d) n = existsSyncD d n := by
  intro d
  induction d with
  | nil => intro _; rfl
  | cons q t ih =>
    intro hnd
    obtain ⟨m, e⟩ := q
    rw [List.map_cons, List.nodup_cons] at hnd
    obtain ⟨hm, hndt⟩ := hnd
    by_cases hmn : m = n
    · subst hmn
      unfold removeBroken
      rw [List.filter_cons]
      by_cases hpr : pruneEntry e = true
      · rw [if_neg (by simp [hpr])]
        have h1 : lookupEntry (removeBroken t) m = none := by
          apply lookupEntry_none_of_not_mem
          intro p hp he
          exact hm (List.mem_map.mpr ⟨p, ((mem_removeBroken t p).mp hp).1, he⟩)
        unfold existsSyncD
        rw [show (removeBroken t : Dir) = List.filter (fun p => !pruneEntry p.2) t from rfl] at h1
        rw [h1, lookupEntry_cons, if_pos rfl]
        cases e <;> simp_all [pruneEntry, entryAccessible]
      · rw [if_pos (by simp [Bool.not_eq_true] at hpr; simp [hpr])]
        unfold existsSyncD
        rw [lookupEntry_cons, lookupEntry_cons, if_pos rfl, if_pos rfl]
    · unfold removeBroken
      rw [List.filter_cons]
      by_cases hpr : (!pruneEntry e) = true
      · rw [if_pos hpr]
        unfold existsSyncD
        rw [lookupEntry_cons, lookupEntry_cons, if_neg hmn, if_neg hmn]
        exact ih hndt
      · rw [if_neg hpr, existsSyncD_cons, if_neg hmn]
        exact ih hndt

theorem lookupEntry_removeBroken_accessible (n : String) :
    ∀ (d : Dir), (d.map Prod.fst).Nodup → existsSyncD d n = true →
      lookupEntry (removeBroken d) n = lookupEntry d n := by
  intro d
  induction d with
  | nil => intro _ _; rfl
  | cons q t ih =>
    intro hnd h
    obtain ⟨m, e⟩ := q
    rw [List.map_cons, List.nodup_cons] at hnd
    obtain ⟨hm, hndt⟩ := hnd
    by_cases hmn : m = n
    · subst hmn
      have hacc : entryAccessible (some e) = true := by
        unfold existsSyncD at h
        rw [lookupEntry_cons, if_pos rfl] at h
        exact h
      have hpr : pruneEntry e = false := by
        cases e <;> simp_all [pruneEntry, entryAccessible]
      unfold removeBroken
      rw [List.filter_cons, if_pos (by simp [hpr])]
      rw [lookupEntry_cons, lookupEntry_cons, if_pos rfl, if_pos rfl]
    · have h' : existsSyncD t n = true := by
        unfold existsSyncD at h
        rw [lookupEntry_cons, if_neg hmn] at h
        exact h
      unfold removeBroken
      rw [List.filter_cons]
      by_cases hpr : (!pruneEntry e) = true
      · rw [if_pos hpr, lookupEntry_cons, lookupEntry_cons, if_neg hmn, if_neg hmn]
        exact ih hndt h'
      · rw [if_neg hpr, lookupEntry_cons, if_neg hmn]
        exact ih hndt h'

theorem repairDir_no_broken (caps : FsCaps) (isWin : Bool) (d : Dir) :
    ∀ p ∈ (repairDir caps isWin d).1, pruneEntry p.2 = false := by
  intro p hp
  have hp' : p ∈ ((symlinkPairs isWin).foldl (createAliasC caps) (removeBroken d, 0)).1 := hp
  rcases mem_foldCreate caps (symlinkPairs isWin) (removeBroken d, 0) p hp' with h | h
  · exact ((mem_removeBroken d p).mp h).2
  · rw [h]
    exact pruneEntry_alias caps

/-- Claim C4: a repair pass over an existing vendored bin directory leaves
no broken symlink (and no uninspectable entry) behind, and the pass is
idempotent: on the state it produces, a second pass performs zero deletions
and zero alias creations and leaves the directory unchanged (returning
`true` both times). -/
theorem c4_repair_idempotent (caps : FsCaps) (isWin : Bool) (d : Dir) :
    (∀ p ∈ (repairDir caps isWin d).1, p.2 ≠ FsEntry.symlink true ∧ pruneEntry p.2 = false) ∧
    fixTinyTeXSymlinks caps isWin (some d) =
      ⟨some (repairDir caps isWin d).1, brokenCount d,
        (createAliases caps (removeBroken d) (symlinkPairs isWin)).2, true⟩ ∧
    fixTinyTeXSymlinks caps isWin (some ((repairDir caps isWin d).1)) =
      ⟨some ((repairDir caps isWin d).1), 0, 0, true⟩ := by
  have hnb := repairDir_no_broken caps isWin d
  refine ⟨?_, rfl, ?_⟩
  · intro p hp
    refine ⟨?_, hnb p hp⟩
    intro he
    have := hnb p hp
    rw [he] at this
    cases this
  · have hrb : removeBroken ((repairDir caps isWin d).1) = (repairDir caps isWin d).1 :=
      removeBroken_eq_self _ hnb
    have hbc : brokenCount ((repairDir caps isWin d).1) = 0 :=
      brokenCount_eq_zero _ hnb
    have hcr : createAliases caps ((repairDir caps isWin d).1) (symlinkPairs isWin) =
        ((repairDir caps isWin d).1, 0) := by
      unfold createAliases
      apply foldCreate_noop
      intro pr hmem hcon
      exact foldCreate_stable caps hcon.2.2 (symlinkPairs isWin) (symlinkPairs_wf isWin)
        (removeBroken d, 0) pr hmem ⟨hcon.1, hcon.2.1⟩
    have hr : ∀ x : Dir, removeBroken x = x →
        createAliases caps x (symlinkPairs isWin) = (x, 0) → brokenCount x = 0 →
        repairDir caps isWin x = (x, 0, 0) := by
      intro x h1 h2 h3
      unfold repairDir
      rw [h1, h2, h3]
    have hfix : fixTinyTeXSymlinks caps isWin (some ((repairDir caps isWin d).1)) =
        ⟨some (repairDir caps isWin ((repairDir caps isWin d).1)).1,
          (repairDir caps isWin ((repairDir caps isWin d).1)).2.1,
          (repairDir caps isWin ((repairDir caps isWin d).1)).2.2, true⟩ := rfl
    rw [hfix, hr ((repairDir caps isWin d).1) hrb hcr hbc]

/-- Claim C5: after a repair pass over a directory listing with distinct
entry names, in an environment where alias creation can succeed (symlink
creation works, or its file-copy fallback does), each of the four alias
pairs satisfies: an alias is never fabricated when the source binary is
absent; when the source binary exists and the alias was absent, the alias
now exists — as a (valid, non-broken) symlink when linking works, else as
a full file copy; and an alias that already existed (was accessible) is
never overwritten. -/
theorem c5_alias_invariants (caps : FsCaps) (isWin : Bool) (d : Dir)
    (hnd : (d.map Prod.fst).Nodup)
    (hcap : caps.canSymlink = true ∨ caps.canCopy = true)
    (fr tn : String) (hmem : (fr, tn) ∈ symlinkPairs isWin) :
    (existsSyncD d fr = false → existsSyncD d tn = false →
      existsSyncD (repairDir caps isWin d).1 tn = false) ∧
    (existsSyncD d fr = true → existsSyncD d tn = false →
      lookupEntry (repairDir caps isWin d).1 tn = some (aliasEntry caps) ∧
      existsSyncD (repairDir caps isWin d).1 tn = true) ∧
    (existsSyncD d tn = true →
      lookupEntry (repairDir caps isWin d).1 tn = lookupEntry d tn) := by
  refine ⟨?_, ?_, ?_⟩
  · intro hf ht
    have hf' : existsSyncD (removeBroken d) fr = false := by
      rw [existsSyncD_removeBroken fr d hnd]; exact hf
    have ht' : existsSyncD (removeBroken d) tn = false := by
      rw [existsSyncD_removeBroken tn d hnd]; exact ht
    exact foldCreate_no_create caps (symlinkPairs isWin) (symlinkPairs_wf isWin)
      (removeBroken d, 0) fr tn hmem hf' ht'
  · intro hf ht
    have hf' : existsSyncD (removeBroken d) fr = true := by
      rw [existsSyncD_removeBroken fr d hnd]; exact hf
    have ht' : existsSyncD (removeBroken d) tn = false := by
      rw [existsSyncD_removeBroken tn d hnd]; exact ht
    have hl : lookupEntry (repairDir caps isWin d).1 tn = some (aliasEntry caps) :=
      foldCreate_create caps hcap (symlinkPairs isWin) (symlinkPairs_wf isWin)
        (removeBroken d, 0) fr tn hmem hf' ht'
    refine ⟨hl, ?_⟩
    have : existsSyncD (repairDir caps isWin d).1 tn =
        entryAccessible (some (aliasEntry caps)) := by
      unfold existsSyncD
      rw [hl]
    rw [this]
    exact entryAccessible_alias caps
  · intro ht
    have h2 : existsSyncD (removeBroken d) tn = true := by
      rw [existsSyncD_removeBroken tn d hnd]; exact ht
    have h1 : lookupEntry (removeBroken d) tn = lookupEntry d tn :=
      lookupEntry_removeBroken_accessible tn d hnd ht
    have h3 : lookupEntry (repairDir caps isWin d).1 tn =
        lookupEntry (removeBroken d) tn :=
      lookup_foldCreate_accessible caps tn (symlinkPairs isWin) (removeBroken d, 0) h2
    rw [h3, h1]

/-- Directory for the C5 witness: a pdftex binary and one stale broken
symlink; the pdflatex alias is absent. -/
def c5wDir : Dir := [("pdftex", FsEntry.file), ("stale", FsEntry.symlink true)]

theorem c5_alias_invariants_witness :
    ((c5wDir.map Prod.fst).Nodup ∧ existsSyncD c5wDir "pdftex" = true ∧
      existsSyncD c5wDir "pdflatex" = false) ∧
    lookupEntry (repairDir ⟨true, true⟩ false c5wDir).1 "pdflatex" =
      some (aliasEntry ⟨true, true⟩) := by
  refine ⟨⟨by decide, by decide, by decide⟩, ?_⟩
  exact ((c5_alias_invariants ⟨true, true⟩ false c5wDir (by decide) (Or.inl rfl)
    "pdftex" "pdflatex" (by decide)).2.1 (by decide) (by decide)).1

/-! ## C7: the default output path -/

theorem splitOnChar_cons_eq (sep c : Char) (rest : JStr) :
    splitOnChar sep (c :: rest) =
      match splitOnChar sep rest with
      | [] => [[]]
      | g :: gs => if c = sep then [] :: g :: gs else (c :: g) :: gs := rfl

theorem splitOnChar_ne_nil (sep : Char) (l : JStr) : splitOnChar sep l ≠ [] := by
  cases l with
  | nil => simp [splitOnChar]
  | cons c rest =>
    rw [splitOnChar_cons_eq]
    cases h : splitOnChar sep rest with
    | nil => simp
    | cons g gs => split_ifs <;> simp

theorem splitOnChar_single (sep : Char) :
    ∀ (l : JStr), sep ∉ l → splitOnChar sep l = [l] := by
  intro l
  induction l with
  | nil => intro _; rfl
  | cons c rest ih =>
    intro h
    have hc : ¬c = sep := by
      intro he
      subst he
      exact h (List.mem_cons_self c rest)
    have ht : splitOnChar sep rest = [rest] :=
      ih (fun hm => h (List.mem_cons_of_mem c hm))
    rw [splitOnChar_cons_eq, ht]
    simp [hc]

theorem splitOnChar_append_sep (sep : Char) (y : JStr) :
    ∀ (x : JStr), sep ∉ x →
      splitOnChar sep (x ++ sep :: y) = x :: splitOnChar sep y := by
  intro x
  induction x with
  | nil =>
    intro _
    rw [List.nil_append, splitOnChar_cons_eq]
    cases h : splitOnChar sep y with
    | nil => exact absurd h (splitOnChar_ne_nil sep y)
    | cons g gs => simp
  | cons c t ih =>
    intro h
    have hc : ¬c = sep := by
      intro he
      subst he
      exact h (List.mem_cons_self c t)
    have ht : splitOnChar sep (t ++ sep :: y) = t :: splitOnChar sep y :=
      ih (fun hm => h (List.mem_cons_of_mem c hm))
    rw [List.cons_append, splitOnChar_cons_eq, ht]
    simp [hc]

theorem intercalateSlash_cons₂ (p q : JStr) (rest : List JStr) :
    intercalateSlash (p :: q :: rest) = p ++ '/' :: intercalateSlash (q :: rest) := rfl

theorem intercalateSlash_cons_ne (p : JStr) (l : List JStr) (h : l ≠ []) :
    intercalateSlash (p :: l) = p ++ '/' :: intercalateSlash l := by
  cases l with
  | nil => cases h rfl
  | cons q rest => rfl

theorem intercalateSlash_append_single (b : JStr) :
    ∀ (ds : List JStr), ds ≠ [] →
      intercalateSlash (ds ++ [b]) = intercalateSlash ds ++ '/' :: b := by
  intro ds
  induction ds with
  | nil => intro h; cases h rfl
  | cons d t ih =>
    intro _
    cases t with
    | nil => rfl
    | cons d2 t2 =>
      rw [show (d :: d2 :: t2) ++ [b] = d :: ((d2 :: t2) ++ [b]) from rfl]
      rw [intercalateSlash_cons_ne d _ (by simp)]
      rw [ih (by simp)]
      rw [intercalateSlash_cons_ne d _ (by simp)]
      simp

theorem splitOnChar_intercalate :
    ∀ (cs : List JStr), cs ≠ [] → (∀ c ∈ cs, '/' ∉ c) →
      splitOnChar '/' (intercalateSlash cs) = cs := by
  intro cs
  induction cs with
  | nil => intro h; cases h rfl
  | cons c t ih =>
    intro _ h
    cases t with
    | nil => exact splitOnChar_single '/' c (h c (List.mem_cons_self c []))
    | cons c2 t2 =>
      rw [intercalateSlash_cons₂]
      rw [splitOnChar_append_sep '/' _ c (h c (List.mem_cons_self _ _))]
      rw [ih (by simp) (fun q hq => h q (List.mem_cons_of_mem c hq))]

theorem normStack_clean (allow : Bool) :
    ∀ (cs : List JStr) (acc : List JStr),
      (∀ c ∈ cs, c ≠ [] ∧ c ≠ ['.'] ∧ c ≠ ['.', '.']) →
      normStack allow acc cs = cs.reverse ++ acc := by
  intro cs
  induction cs with
  | nil => intro acc _; simp [normStack]
  | cons c t ih =>
    intro acc h
    obtain ⟨h1, h2, h3⟩ := h c (List.mem_cons_self c t)
    unfold normStack
    rw [if_neg (by simp [h1, h2]), if_neg h3]
    rw [ih (c :: acc) (fun q hq => h q (List.mem_cons_of_mem c hq))]
    simp

theorem startsSlash_cons (a : Char) (l : JStr) :
    startsSlash (a :: l) = decide (a = '/') := rfl

theorem startsSlash_append_of (x z : JStr) (hx : x ≠ []) (h : '/' ∉ x) :
    startsSlash (x ++ z) = false := by
  cases x with
  | nil => cases hx rfl
  | cons a t =>
    rw [List.cons_append, startsSlash_cons]
    simp only [decide_eq_false_iff_not]
    intro he
    subst he
    exact h (List.mem_cons_self _ _)

theorem startsSlash_reverse_append (y b : JStr) (hb : b ≠ []) (h : '/' ∉ b) :
    startsSlash (y ++ b).reverse = false := by
  rw [List.reverse_append]
  cases hr : b.reverse with
  | nil => exact absurd (List.reverse_eq_nil_iff.mp hr) hb
  | cons a t =>
    rw [List.cons_append, startsSlash_cons]
    simp only [decide_eq_false_iff_not]
    intro he
    subst he
    refine h ?_
    rw [← List.mem_reverse, hr]
    exact List.mem_cons_self _ _

theorem lastIdxOf_cons (c a : Char) (rest : JStr) :
    lastIdxOf c (a :: rest) =
      match lastIdxOf c rest with
      | some i => some (i + 1)
      | none => if a = c then some 0 else none := rfl

theorem lastIdxOf_none (c : Char) :
    ∀ (l : JStr), c ∉ l → lastIdxOf c l = none := by
  intro l
  induction l with
  | nil => intro _; rfl
  | cons a t ih =>
    intro h
    rw [lastIdxOf_cons, ih (fun hm => h (List.mem_cons_of_mem a hm))]
    rw [if_neg (by intro he; subst he; exact h (List.mem_cons_self a t))]

theorem lastIdxOf_append_sep (sep : Char) (y : JStr) (hy : sep ∉ y) :
    ∀ (x : JStr), lastIdxOf sep (x ++ sep :: y) = some x.length := by
  intro x
  induction x with
  | nil =>
    rw [List.nil_append, lastIdxOf_cons, lastIdxOf_none sep y hy]
    simp
  | cons a t ih =>
    rw [List.cons_append, lastIdxOf_cons, ih]
    simp

theorem lastIdxOf_lt_length (c : Char) :
    ∀ (l : JStr) (k : Nat), lastIdxOf c l = some k → k < l.length := by
  intro l
  induction l with
  | nil => intro k h; cases h
  | cons a t ih =>
    intro k h
    rw [lastIdxOf_cons] at h
    cases ht : lastIdxOf c t with
    | some i =>
      rw [ht] at h
      cases h
      have := ih i ht
      simp
      omega
    | none =>
      rw [ht] at h
      by_cases ha : a = c
      · rw [if_pos ha] at h
        cases h
        simp
      · rw [if_neg ha] at h
        cases h

theorem dropTrailing_eq_self (l : JStr) (h : startsSlash l.reverse = false) :
    dropTrailing '/' l = l := by
  unfold dropTrailing
  cases hr : l.reverse with
  | nil =>
    rw [List.dropWhile_nil]
    rw [← hr, List.reverse_reverse]
  | cons a t =>
    rw [hr] at h
    rw [startsSlash_cons] at h
    rw [List.dropWhile_cons, if_neg (by simpa using h)]
    rw [← hr, List.reverse_reverse]

theorem intercalateSlash_head (c : JStr) (t : List JStr) :
    ∃ z, intercalateSlash (c :: t) = c ++ z := by
  cases t with
  | nil => exact ⟨[], by simp [intercalateSlash]⟩
  | cons q r => exact ⟨'/' :: intercalateSlash (q :: r), rfl⟩

theorem intercalateSlash_ne_nil (cs : List JStr) (hne : cs ≠ [])
    (h : ∀ c ∈ cs, c ≠ []) : intercalateSlash cs ≠ [] := by
  cases cs with
  | nil => cases hne rfl
  | cons c t =>
    obtain ⟨z, hz⟩ := intercalateSlash_head c t
    rw [hz]
    intro hcon
    exact h c (List.mem_cons_self c t) (List.append_eq_nil.mp hcon).1

theorem intercalate_eq_append_last (b : JStr) (ds : List JStr) :
    ∃ y, intercalateSlash (ds ++ [b]) = y ++ b := by
  cases hds : ds with
  | nil => exact ⟨[], by simp [intercalateSlash]⟩
  | cons d t =>
    refine ⟨intercalateSlash (d :: t) ++ ['/'], ?_⟩
    rw [intercalateSlash_append_single b (d :: t) (by simp)]
    rw [List.append_cons]

theorem startsSlash_intercalate_reverse (cs : List JStr) (hne : cs ≠ [])
    (h : ∀ c ∈ cs, c ≠ [] ∧ '/' ∉ c) :
    startsSlash (intercalateSlash cs).reverse = false := by
  rcases List.eq_nil_or_concat cs with rfl | ⟨L, b, hcs⟩
  · cases hne rfl
  · rw [hcs, List.concat_eq_append]
    obtain ⟨y, hy⟩ := intercalate_eq_append_last b L
    rw [hy]
    have hb := h b (by rw [hcs, List.concat_eq_append]; simp)
    exact startsSlash_reverse_append y b hb.1 hb.2

theorem startsSlash_intercalate (cs : List JStr) (hne : cs ≠ [])
    (h : ∀ c ∈ cs, c ≠ [] ∧ '/' ∉ c) :
    startsSlash (intercalateSlash cs) = false := by
  cases cs with
  | nil => cases hne rfl
  | cons c t =>
    obtain ⟨z, hz⟩ := intercalateSlash_head c t
    rw [hz]
    exact startsSlash_append_of c z (h c (List.mem_cons_self c t)).1
      (h c (List.mem_cons_self c t)).2

theorem pathNormalize_clean (abs : Bool) (cs : List JStr) (hne : cs ≠ [])
    (hc : ∀ c ∈ cs, cleanComp c) :
    pathNormalize (mkPath abs cs) = mkPath abs cs := by
  have hcs1 : ∀ c ∈ cs, c ≠ [] := fun c h => (hc c h).1
  have hcs2 : ∀ c ∈ cs, '/' ∉ c := fun c h => (hc c h).2.1
  have hcs12 : ∀ c ∈ cs, c ≠ [] ∧ '/' ∉ c := fun c h => ⟨hcs1 c h, hcs2 c h⟩
  have hcs3 : ∀ c ∈ cs, c ≠ [] ∧ c ≠ ['.'] ∧ c ≠ ['.', '.'] :=
    fun c h => ⟨(hc c h).1, (hc c h).2.2.1, (hc c h).2.2.2⟩
  have hq_ne : intercalateSlash cs ≠ [] := intercalateSlash_ne_nil cs hne hcs1
  have hsplit : splitOnChar '/' (intercalateSlash cs) = cs :=
    splitOnChar_intercalate cs hne hcs2
  have htrail : startsSlash (intercalateSlash cs).reverse = false :=
    startsSlash_intercalate_reverse cs hne hcs12
  have hstart : startsSlash (intercalateSlash cs) = false :=
    startsSlash_intercalate cs hne hcs12
  have hrebuild : ∀ a : Bool,
      intercalateSlash ((normStack a [] cs).reverse) = intercalateSlash cs := by
    intro a
    rw [normStack_clean a cs [] hcs3]
    simp
  cases abs with
  | false =>
    have hmk : mkPath false cs = intercalateSlash cs := by simp [mkPath]
    rw [hmk]
    unfold pathNormalize
    rw [if_neg hq_ne]
    simp only [hstart, htrail, hsplit, hrebuild, Bool.not_false, if_false]
    rw [if_neg hq_ne]
    simp
  | true =>
    have hmk : mkPath true cs = '/' :: intercalateSlash cs := by simp [mkPath]
    rw [hmk]
    have hstart2 : startsSlash ('/' :: intercalateSlash cs) = true := by
      rw [startsSlash_cons]
      simp
    have htrail2 : startsSlash ('/' :: intercalateSlash cs).reverse = false := by
      rw [show ('/' :: intercalateSlash cs) = ['/'] ++ intercalateSlash cs from rfl,
        List.reverse_append]
      cases hr : (intercalateSlash cs).reverse with
      | nil => exact absurd (List.reverse_eq_nil_iff.mp hr) hq_ne
      | cons a t =>
        rw [hr] at htrail
        rw [List.cons_append, startsSlash_cons]
        rw [startsSlash_cons] at htrail
        exact htrail
    have hsplit2 : splitOnChar '/' ('/' :: intercalateSlash cs) = [] :: cs := by
      rw [splitOnChar_cons_eq, hsplit]
      cases cs with
      | nil => cases hne rfl
      | cons c t => simp
    have hstack2 : ∀ a : Bool, normStack a [] ([] :: cs) = normStack a [] cs := by
      intro a
      rw [normStack]
      rw [if_pos (Or.inl rfl)]
    unfold pathNormalize
    rw [if_neg (by simp : ¬('/' :: intercalateSlash cs : JStr) = [])]
    simp only [hstart2, htrail2, hsplit2, hstack2, hrebuild, Bool.not_true, if_true]
    rw [if_neg hq_ne]
    simp

theorem pathNormalize_single_clean (f : JStr) (hf : cleanComp f) :
    pathNormalize f = f := by
  have h := pathNormalize_clean false [f] (by simp) (by simpa using hf)
  simpa [mkPath, intercalateSlash] using h

theorem pathJoinL_nil_clean (f : JStr) (hf : cleanComp f) :
    pathJoinL [[], f] = f := by
  unfold pathJoinL
  have hfil : ([[], f] : List JStr).filter (fun q => !q.isEmpty) = [f] := by
    simp [List.filter_cons]
    intro hcon
    exact hf.1 (by simpa using hcon)
  rw [hfil]
  simp only [intercalateSlash]
  rw [if_neg hf.1]
  exact pathNormalize_single_clean f hf

theorem pathJoinL_root_clean (f : JStr) (hf : cleanComp f) :
    pathJoinL [['/'], f] = '/' :: f := by
  unfold pathJoinL
  have hfil : ([['/'], f] : List JStr).filter (fun q => !q.isEmpty) = [['/'], f] := by
    simp [List.filter_cons]
    intro hcon
    exact hf.1 (by simpa using hcon)
  rw [hfil]
  rw [show intercalateSlash [['/'], f] = '/' :: '/' :: f from rfl]
  rw [if_neg (by simp)]
  unfold pathNormalize
  rw [if_neg (by simp)]
  have hsplit : splitOnChar '/' ('/' :: '/' :: f) = [] :: [] :: [f] := by
    rw [splitOnChar_cons_eq]
    rw [show splitOnChar '/' ('/' :: f) = [] :: [f] by
      rw [splitOnChar_cons_eq, splitOnChar_single '/' f hf.2.1]
      simp]
    simp
  have hstart : startsSlash ('/' :: '/' :: f) = true := by
    rw [startsSlash_cons]; simp
  have htrail : startsSlash ('/' :: '/' :: f).reverse = false := by
    rw [show ('/' :: '/' :: f : JStr) = ['/', '/'] ++ f from rfl]
    exact startsSlash_reverse_append ['/', '/'] f hf.1 hf.2.1
  have hstack : normStack false [] ([] :: [] :: [f]) = [f] := by
    rw [normStack, if_pos (Or.inl rfl), normStack, if_pos (Or.inl rfl)]
    exact normStack_clean false [f] []
      (fun c hc => by
        rcases List.mem_singleton.mp hc with rfl
        exact ⟨hf.1, hf.2.2.1, hf.2.2.2⟩)
  simp only [hstart, htrail, hsplit, Bool.not_true, hstack]
  rw [show intercalateSlash ([f] : List JStr).reverse = f from rfl]
  rw [if_neg hf.1]
  simp

theorem pathJoinL_dir_clean (ds : List JStr) (f : JStr) (hds : ds ≠ [])
    (hdsc : ∀ c ∈ ds, cleanComp c) (hf : cleanComp f) :
    pathJoinL [intercalateSlash ds, f] = intercalateSlash ds ++ '/' :: f := by
  have hD_ne : intercalateSlash ds ≠ [] :=
    intercalateSlash_ne_nil ds hds (fun c h => (hdsc c h).1)
  unfold pathJoinL
  have hfil : ([intercalateSlash ds, f] : List JStr).filter (fun q => !q.isEmpty) =
      [intercalateSlash ds, f] := by
    simp [List.filter_cons]
    rw [if_neg hD_ne, if_neg hf.1]
  rw [hfil]
  rw [show intercalateSlash [intercalateSlash ds, f] =
    intercalateSlash ds ++ '/' :: f from rfl]
  rw [← intercalateSlash_append_single f ds hds]
  rw [if_neg (intercalateSlash_ne_nil (ds ++ [f]) (by simp)
    (fun c hc => by
      rcases List.mem_append.mp hc with h | h
      · exact (hdsc c h).1
      · rcases List.mem_singleton.mp h with rfl
        exact hf.1))]
  have h := pathNormalize_clean false (ds ++ [f]) (by simp)
    (fun c hc => by
      rcases List.mem_append.mp hc with h | h
      · exact hdsc c h
      · rcases List.mem_singleton.mp h with rfl
        exact hf)
  rw [show mkPath false (ds ++ [f]) = intercalateSlash (ds ++ [f]) by simp [mkPath]] at h
  rw [h, intercalateSlash_append_single f ds hds]

theorem pathJoinL_absdir_clean (ds : List JStr) (f : JStr) (hds : ds ≠ [])
    (hdsc : ∀ c ∈ ds, cleanComp c) (hf : cleanComp f) :
    pathJoinL ['/' :: intercalateSlash ds, f] =
      '/' :: (intercalateSlash ds ++ '/' :: f) := by
  unfold pathJoinL
  have hfil : (['/' :: intercalateSlash ds, f] : List JStr).filter (fun q => !q.isEmpty) =
      ['/' :: intercalateSlash ds, f] := by
    simp [List.filter_cons]
    intro hcon
    exact hf.1 (by simpa using hcon)
  rw [hfil]
  rw [show intercalateSlash ['/' :: intercalateSlash ds, f] =
    ('/' :: intercalateSlash ds) ++ '/' :: f from rfl]
  rw [show (('/' :: intercalateSlash ds) ++ '/' :: f : JStr) =
    '/' :: (intercalateSlash ds ++ '/' :: f) from rfl]
  rw [← intercalateSlash_append_single f ds hds]
  rw [if_neg (by simp)]
  have h := pathNormalize_clean true (ds ++ [f]) (by simp)
    (fun c hc => by
      rcases List.mem_append.mp hc with h | h
      · exact hdsc c h
      · rcases List.mem_singleton.mp h with rfl
        exact hf)
  rw [show mkPath true (ds ++ [f]) = '/' :: intercalateSlash (ds ++ [f]) by
    simp [mkPath]] at h
  rw [h]

theorem startsSlash_no_slash (b : JStr) (hb : b ≠ []) (hbs : '/' ∉ b) :
    startsSlash b = false := by
  cases b with
  | nil => cases hb rfl
  | cons a t =>
    rw [startsSlash_cons]
    simp only [decide_eq_false_iff_not]
    intro he
    subst he
    exact hbs (List.mem_cons_self _ _)

theorem startsSlash_reverse_no_slash (b : JStr) (hb : b ≠ []) (hbs : '/' ∉ b) :
    startsSlash b.reverse = false := by
  have h := startsSlash_reverse_append [] b hb hbs
  rw [List.nil_append] at h
  exact h

theorem parseDirBase_single (b : JStr) (hb : b ≠ []) (hbs : '/' ∉ b) :
    parseDirBase b = ([], b) := by
  unfold parseDirBase
  rw [if_neg hb]
  simp only [startsSlash_no_slash b hb hbs, Bool.false_eq_true, if_false, List.drop_zero,
    dropTrailing_eq_self b (startsSlash_reverse_no_slash b hb hbs)]
  rw [if_neg hb, lastIdxOf_none '/' b hbs]

theorem parseDirBase_single_abs (b : JStr) (hb : b ≠ []) (hbs : '/' ∉ b) :
    parseDirBase ('/' :: b) = (['/'], b) := by
  unfold parseDirBase
  rw [if_neg (by simp)]
  have hst : startsSlash ('/' :: b) = true := by
    rw [startsSlash_cons]; simp
  simp only [hst, if_true, List.drop_one, List.tail_cons,
    dropTrailing_eq_self b (startsSlash_reverse_no_slash b hb hbs)]
  rw [if_neg hb, lastIdxOf_none '/' b hbs]

theorem parseDirBase_dir (ds : List JStr) (b : JStr) (hds : ds ≠ [])
    (hdsc : ∀ c ∈ ds, cleanComp c) (hb : cleanComp b) :
    parseDirBase (intercalateSlash ds ++ '/' :: b) = (intercalateSlash ds, b) := by
  have hall : ∀ c ∈ ds ++ [b], c ≠ [] ∧ '/' ∉ c := by
    intro c hc
    rcases List.mem_append.mp hc with h | h
    · exact ⟨(hdsc c h).1, (hdsc c h).2.1⟩
    · rcases List.mem_singleton.mp h with rfl
      exact ⟨hb.1, hb.2.1⟩
  have hp : intercalateSlash (ds ++ [b]) = intercalateSlash ds ++ '/' :: b :=
    intercalateSlash_append_single b ds hds
  have hne : (intercalateSlash ds ++ '/' :: b : JStr) ≠ [] := by simp
  have hstart : startsSlash (intercalateSlash ds ++ '/' :: b) = false := by
    rw [← hp]
    exact startsSlash_intercalate (ds ++ [b]) (by simp) hall
  have htrail : startsSlash (intercalateSlash ds ++ '/' :: b).reverse = false := by
    rw [← hp]
    exact startsSlash_intercalate_reverse (ds ++ [b]) (by simp) hall
  unfold parseDirBase
  rw [if_neg hne]
  simp only [hstart, Bool.false_eq_true, if_false, List.drop_zero,
    dropTrailing_eq_self _ htrail]
  rw [if_neg hne, lastIdxOf_append_sep '/' b hb.2.1 (intercalateSlash ds)]
  simp only [Nat.zero_add]
  rw [List.take_left]
  rw [List.append_cons (intercalateSlash ds) '/' b]
  rw [show (intercalateSlash ds).length + 1 = (intercalateSlash ds ++ ['/']).length by
    simp]
  rw [List.drop_left]

theorem parseDirBase_absdir (ds : List JStr) (b : JStr) (hds : ds ≠ [])
    (hdsc : ∀ c ∈ ds, cleanComp c) (hb : cleanComp b) :
    parseDirBase ('/' :: (intercalateSlash ds ++ '/' :: b)) =
      ('/' :: intercalateSlash ds, b) := by
  have hall : ∀ c ∈ ds ++ [b], c ≠ [] ∧ '/' ∉ c := by
    intro c hc
    rcases List.mem_append.mp hc with h | h
    · exact ⟨(hdsc c h).1, (hdsc c h).2.1⟩
    · rcases List.mem_singleton.mp h with rfl
      exact ⟨hb.1, hb.2.1⟩
  have hp : intercalateSlash (ds ++ [b]) = intercalateSlash ds ++ '/' :: b :=
    intercalateSlash_append_single b ds hds
  have hq_ne : (intercalateSlash ds ++ '/' :: b : JStr) ≠ [] := by simp
  have htrail : startsSlash (intercalateSlash ds ++ '/' :: b).reverse = false := by
    rw [← hp]
    exact startsSlash_intercalate_reverse (ds ++ [b]) (by simp) hall
  have hst : startsSlash ('/' :: (intercalateSlash ds ++ '/' :: b)) = true := by
    rw [startsSlash_cons]; simp
  unfold parseDirBase
  rw [if_neg (by simp)]
  simp only [hst, if_true, List.drop_one, List.tail_cons, dropTrailing_eq_self _ htrail]
  rw [if_neg hq_ne, lastIdxOf_append_sep '/' b hb.2.1 (intercalateSlash ds)]
  simp only [Nat.add_comm 1 (intercalateSlash ds).length, List.take_succ_cons]
  rw [List.take_left]
  rw [List.append_cons (intercalateSlash ds) '/' b]
  rw [show (intercalateSlash ds).length + 1 = (intercalateSlash ds ++ ['/']).length by
    simp]
  rw [List.drop_left]

theorem extSplit_cases (b : JStr) :
    ((extSplit b).1 = b ∧ (extSplit b).2 = []) ∨
    (∃ k, 0 < k ∧ k < b.length ∧ (extSplit b).1 = b.take k ∧ (extSplit b).2 = b.drop k) := by
  unfold extSplit
  cases h : lastIdxOf '.' b with
  | none => exact Or.inl ⟨rfl, rfl⟩
  | some k =>
    simp only []
    by_cases hk : k = 0
    · rw [if_pos hk]
      exact Or.inl ⟨rfl, rfl⟩
    · rw [if_neg hk]
      by_cases hbb : b = ['.', '.']
      · rw [if_pos hbb]
        exact Or.inl ⟨rfl, rfl⟩
      · rw [if_neg hbb]
        exact Or.inr ⟨k, Nat.pos_of_ne_zero hk, lastIdxOf_lt_length '.' b k h, rfl, rfl⟩

theorem specDefaultOutput_eq (p front b : JStr) (hp : p = front ++ b)
    (hb_base : (parseDirBase p).2 = b) :
    specDefaultOutput p = front ++ ((extSplit b).1 ++ ".pdf".toList) := by
  subst hp
  unfold specDefaultOutput
  rw [hb_base]
  simp only []
  rcases extSplit_cases b with ⟨h1, h2⟩ | ⟨k, hk0, hklt, h1, h2⟩
  · rw [h2, h1]
    simp only [List.length_nil, Nat.sub_zero]
    rw [List.take_length]
    simp
  · rw [h2, h1]
    have hlen : (front ++ b).length - (b.drop k).length = front.length + k := by
      rw [List.length_append, List.length_drop]
      omega
    rw [hlen, List.take_append_eq_append_take]
    rw [List.take_of_length_le (by omega : front.length ≤ front.length + k)]
    rw [show front.length + k - front.length = k from by omega]
    simp

theorem extSplit_name_clean (b : JStr) (hb : cleanComp b) :
    cleanComp ((extSplit b).1 ++ ".pdf".toList) := by
  have hpdfne : (".pdf".toList : JStr) ≠ [] := by decide
  have hnoslash : '/' ∉ (extSplit b).1 := by
    rcases extSplit_cases b with ⟨h1, _⟩ | ⟨k, _, _, h1, _⟩
    · rw [h1]
      exact hb.2.1
    · rw [h1]
      intro hmem
      exact hb.2.1 (List.take_subset k b hmem)
  refine ⟨?_, ?_, ?_, ?_⟩
  · intro hcon
    exact hpdfne (List.append_eq_nil.mp hcon).2
  · intro hmem
    rcases List.mem_append.mp hmem with h | h
    · exact hnoslash h
    · exact absurd h (by decide)
  · intro hcon
    have hl := congrArg List.length hcon
    rw [List.length_append] at hl
    rw [show (".pdf".toList : JStr).length = 4 from rfl] at hl
    rw [show (['.'] : JStr).length = 1 from rfl] at hl
    omega
  · intro hcon
    have hl := congrArg List.length hcon
    rw [List.length_append] at hl
    rw [show (".pdf".toList : JStr).length = 4 from rfl] at hl
    rw [show (['.', '.'] : JStr).length = 2 from rfl] at hl
    omega

theorem defaultOutputFile_clean (abs : Bool) (ds : List JStr) (b : JStr)
    (hdsc : ∀ c ∈ ds, cleanComp c) (hb : cleanComp b) :
    defaultOutputFile (mkPath abs (ds ++ [b])) =
      specDefaultOutput (mkPath abs (ds ++ [b])) := by
  have hnpdf := extSplit_name_clean b hb
  cases abs with
  | false =>
    cases ds with
    | nil =>
      have hp : mkPath false ([] ++ [b]) = b := by
        simp [mkPath, intercalateSlash]
      rw [hp]
      have hpd : parseDirBase b = ([], b) := parseDirBase_single b hb.1 hb.2.1
      simp only [defaultOutputFile]
      rw [hpd]
      rw [specDefaultOutput_eq b [] b (List.nil_append b).symm (by rw [hpd])]
      simp only []
      rw [pathJoinL_nil_clean _ hnpdf]
      simp
    | cons d t =>
      have hds_ne : (d :: t : List JStr) ≠ [] := by simp
      have hp : mkPath false ((d :: t) ++ [b]) =
          intercalateSlash (d :: t) ++ '/' :: b := by
        rw [show mkPath false ((d :: t) ++ [b]) = intercalateSlash ((d :: t) ++ [b]) by
          simp [mkPath]]
        exact intercalateSlash_append_single b (d :: t) hds_ne
      rw [hp]
      have hpd : parseDirBase (intercalateSlash (d :: t) ++ '/' :: b) =
          (intercalateSlash (d :: t), b) :=
        parseDirBase_dir (d :: t) b hds_ne hdsc hb
      simp only [defaultOutputFile]
      rw [hpd]
      rw [specDefaultOutput_eq (intercalateSlash (d :: t) ++ '/' :: b)
        (intercalateSlash (d :: t) ++ ['/']) b (by rw [List.append_cons]) (by rw [hpd])]
      simp only []
      rw [pathJoinL_dir_clean (d :: t) _ hds_ne hdsc hnpdf]
      rw [List.append_cons]
  | true =>
    cases ds with
    | nil =>
      have hp : mkPath true ([] ++ [b]) = '/' :: b := by
        simp [mkPath, intercalateSlash]
      rw [hp]
      have hpd : parseDirBase ('/' :: b) = (['/'], b) :=
        parseDirBase_single_abs b hb.1 hb.2.1
      simp only [defaultOutputFile]
      rw [hpd]
      rw [specDefaultOutput_eq ('/' :: b) ['/'] b rfl (by rw [hpd])]
      simp only []
      rw [pathJoinL_root_clean _ hnpdf]
      simp
    | cons d t =>
      have hds_ne : (d :: t : List JStr) ≠ [] := by simp
      have hp : mkPath true ((d :: t) ++ [b]) =
          '/' :: (intercalateSlash (d :: t) ++ '/' :: b) := by
        rw [show mkPath true ((d :: t) ++ [b]) =
          '/' :: intercalateSlash ((d :: t) ++ [b]) by simp [mkPath]]
        rw [intercalateSlash_append_single b (d :: t) hds_ne]
      rw [hp]
      have hpd : parseDirBase ('/' :: (intercalateSlash (d :: t) ++ '/' :: b)) =
          ('/' :: intercalateSlash (d :: t), b) :=
        parseDirBase_absdir (d :: t) b hds_ne hdsc hb
      simp only [defaultOutputFile]
      rw [hpd]
      rw [specDefaultOutput_eq ('/' :: (intercalateSlash (d :: t) ++ '/' :: b))
        (('/' :: intercalateSlash (d :: t)) ++ ['/']) b
        (by rw [List.append_cons]; simp) (by rw [hpd])]
      simp only []
      rw [pathJoinL_absdir_clean (d :: t) _ hds_ne hdsc hnpdf]
      rw [List.append_cons]
      simp

theorem parseLoop_engine_only (inp : JStr) :
    ∀ (rest : List JStr) (outF : Option JStr) (eng : JStr),
      (∀ a ∈ rest, startsWithJ engineFlagPre a = true) →
      ∃ eng2, parseLoop inp outF eng rest =
        ParsedArgs.ok inp
          (if jsFalsyStr outF then defaultOutputFile inp else outF.getD []) eng2 := by
  intro rest
  induction rest with
  | nil =>
    intro outF eng _
    exact ⟨eng, rfl⟩
  | cons a t ih =>
    intro outF eng h
    have ha := h a (List.mem_cons_self a t)
    rw [show parseLoop inp outF eng (a :: t) =
      (if startsWithJ engineFlagPre a then parseLoop inp outF (engEqSplit a) t
       else if startsWithJ dashDash a then ParsedArgs.err a
       else if jsFalsyStr outF then parseLoop inp (some a) eng t
       else parseLoop inp outF eng t) from rfl]
    rw [if_pos ha]
    exact ih outF (engEqSplit a) (fun q hq => h q (List.mem_cons_of_mem a hq))

/-- Claim C7: when no output path is given (the arguments after the input
are only `--engine=...` flags, or nothing), the output path is the input
path's parsed directory joined with its parsed base name plus `.pdf`; and
for every input path built from normalized components (no empty, `.` or
`..` components, no redundant or trailing separators) this equals the
input path with its extension replaced by `.pdf`, in the same directory. -/
theorem c7_default_output :
    (∀ (inp : JStr) (rest : List JStr),
      (∀ a ∈ rest, startsWithJ engineFlagPre a = true) →
      ∃ eng, parseCmdArgs (inp :: rest) =
        ParsedArgs.ok inp (defaultOutputFile inp) eng) ∧
    (∀ (abs : Bool) (ds : List JStr) (b : JStr),
      (∀ c ∈ ds, cleanComp c) → cleanComp b →
      defaultOutputFile (mkPath abs (ds ++ [b])) =
        specDefaultOutput (mkPath abs (ds ++ [b]))) := by
  constructor
  · intro inp rest h
    obtain ⟨eng2, he⟩ := parseLoop_engine_only inp rest none defaultEngine h
    refine ⟨eng2, ?_⟩
    rw [show parseCmdArgs (inp :: rest) = parseLoop inp none defaultEngine rest from rfl, he]
    rfl
  · exact fun abs ds b h1 h2 => defaultOutputFile_clean abs ds b h1 h2

theorem c7_default_output_witness :
    ((∀ a ∈ (["--engine=lualatex".toList] : List JStr),
        startsWithJ engineFlagPre a = true) ∧
      (∀ c ∈ (["a".toList] : List JStr), cleanComp c) ∧ cleanComp "doc.tex".toList) ∧
    (∃ eng, parseCmdArgs ["a/doc.tex".toList, "--engine=lualatex".toList] =
      ParsedArgs.ok "a/doc.tex".toList (defaultOutputFile "a/doc.tex".toList) eng) ∧
    defaultOutputFile (mkPath false (["a".toList] ++ ["doc.tex".toList])) =
      specDefaultOutput (mkPath false (["a".toList] ++ ["doc.tex".toList])) ∧
    defaultOutputFile "a/doc.tex".toList = "a/doc.pdf".toList := by
  refine ⟨⟨by decide, by decide, by decide⟩, ?_, ?_, by decide⟩
  · exact c7_default_output.1 "a/doc.tex".toList ["--engine=lualatex".toList] (by decide)
  · exact c7_default_output.2 false ["a".toList] "doc.tex".toList (by decide) (by decide)
